import Mathlib

/-! # venkychat: the real-time message relay

A shallow embedding of the socket handler of `backend/server.js`
(lines 93-116) and of the message-list reducer of `client/src/App.js`
(lines 32-39).

The relay is event driven.  One run is one lifetime of the server process
over a collection that may already hold messages: a sequence of atomic
steps of the Node event loop and of the database it talks to.

* `connect`           a socket is accepted (line 93); `Message.find()` is issued (line 97)
* `findRead c h`      the database executes the query issued for socket `c` and returns `h`
* `findFail c`        that query rejects
* `initEmit c`        the `.then` callback runs: `socket.emit('init', messages)` (line 98)
* `receive c msg oid` a `'message'` event with payload `msg` arrives on socket `c`: the
                      document is built (lines 103-108), with the `_id` `oid` mongoose
                      generates for it, and `message.save()` is started (line 109)
* `saveCommit i`      the database inserts the in-flight document with `_id` `i`
* `saveFail i`        the save of document `i` rejects: the `await` of line 109 throws
* `resume i`          the `await` of line 109 returns for document `i`:
                      `io.emit('message', message)` (line 110)
* `disconnect c`      socket `c` is closed (line 113)
* `tick`              the clock read by `Date.now` advances

No promise of the file has a rejection handler: there is no `try`, no
`.catch` and no `process.on`.  A rejected `find()` (line 97), a rejected
`save()` (line 109) and an exception thrown inside the `async` handler
(line 104, on a payload that is `undefined` or `null`) are unhandled
rejections, on which the Node process exits; every socket is dropped with
it and no callback runs any more.  Inserts already in flight may still be
made by the database.

Library behaviour taken as given: a mongoose document receives its `_id`
and its schema defaults (`timestamp`, line 58) when it is constructed, and
no two documents receive the same `_id`; the fields declared `String`
(lines 54-57) are cast by mongoose's String caster, and a value that caster
refuses makes `save()` reject before anything is sent to the database;
`save` inserts one document atomically or rejects leaving the collection
untouched; `find()` yields every document of the collection, in an order
the database chooses; `io.emit` addresses every socket connected at the
time of the call and `socket.emit` addresses that one socket.
-/

namespace VenkyChat

/-- Sockets are numbered in the order in which they are accepted. -/
abbrev SocketId := Nat

/-- A JSON value as the String caster sees it.  `num shown` is a number whose
`toString()` is `shown`; `arr` is an array; `obj idString` is a plain object, `idString`
being its `_id` property when that is a non-empty string. -/
inductive Value where
  | undefined
  | null
  | str (s : String)
  | num (shown : String)
  | bool (b : Bool)
  | arr
  | obj (idString : Option String)
deriving DecidableEq, Repr

/-- The payload `msg` of an inbound `'message'` event: `missing` when the event carries no
argument (`msg` is `undefined`), `null`, an object with its properties, or `other`, a
string, number, boolean or array, which has none of the four properties the handler
reads. -/
inductive Msg where
  | missing
  | null
  | other
  | object (fields : List (String × Value))
deriving DecidableEq, Repr

/-- The property read `msg.name` of lines 104-107; `none` when it throws, which it does on
`undefined` and `null`.  A property the payload does not have reads as `undefined`. -/
def Msg.prop (name : String) : Msg → Option Value
  | .missing => none
  | .null => none
  | .other => some Value.undefined
  | .object fields => some ((fields.lookup name).getD Value.undefined)

/-- The String caster of mongoose, applied to the fields declared `String` (lines 54-57):
`null` and `undefined` are kept, a string is kept, a number and a boolean become their
`toString()`, an object with a string `_id` becomes that string, and an array or any
other plain object is refused (`none`). -/
def castString : Value → Option Value
  | .undefined => some .undefined
  | .null => some .null
  | .str s => some (.str s)
  | .num shown => some (.str shown)
  | .bool true => some (.str "true")
  | .bool false => some (.str "false")
  | .arr => none
  | .obj (some idString) => some (.str idString)
  | .obj none => none

/-- A document of the `Message` model (`messageSchema`, lines 53-59), with
the `_id` every mongoose document carries. -/
structure Message where
  id : Nat
  user : Value
  message : Value
  file : Value
  fileType : Value
  timestamp : Nat
deriving DecidableEq, Repr

/-- The constructor call `new Message(...)` of lines 103-108 and the validation `save()`
starts with: four properties are read from the payload and cast, `oid` is the `_id`
generated for the document and `now` the value of `Date.now`.  `none` when a property read
throws or a cast is refused; the handler's promise is rejected then and nothing reaches
the database. -/
def newMessage (oid now : Nat) (msg : Msg) : Option Message :=
  match msg.prop "user", msg.prop "message", msg.prop "file", msg.prop "fileType" with
  | some u, some b, some f, some t =>
      match castString u, castString b, castString f, castString t with
      | some user, some message, some file, some fileType =>
          some { id := oid, user := user, message := message, file := file
                 fileType := fileType, timestamp := now }
      | _, _, _, _ => none
  | _, _, _, _ => none

/-- The two events the relay emits. -/
inductive Event where
  | init (messages : List Message)
  | message (m : Message)
deriving DecidableEq, Repr

/-- One emit call: the sockets it addresses and the event. -/
structure Emission where
  targets : List SocketId
  event : Event
deriving DecidableEq, Repr

/-- The state of relay and database between two steps. -/
structure State where
  /-- Whether the server process has exited on an unhandled rejection. -/
  exited : Bool
  /-- Number of sockets accepted so far. -/
  nextConn : Nat
  /-- Sockets currently connected. -/
  openSockets : List SocketId
  /-- Current value of `Date.now`. -/
  now : Nat
  /-- The messages collection, in the order of insertion. -/
  store : List Message
  /-- Sockets whose `Message.find()` has been issued and not yet executed. -/
  findIssued : List SocketId
  /-- Query results whose `.then` callback has not yet run. -/
  findDone : List (SocketId × List Message)
  /-- Documents whose `save()` is in flight, with the socket they came from. -/
  saving : List (SocketId × Message)
  /-- Documents inserted by the database whose handler has not yet resumed. -/
  saved : List (SocketId × Message)
  /-- Every emit call made so far, oldest first. -/
  emitted : List Emission
deriving DecidableEq, Repr

/-- The relay right after `server.listen`, over the collection `stored` that earlier runs
have left. -/
def boot (stored : List Message) : State :=
  { exited := false, nextConn := 0, openSockets := [], now := 0, store := stored
    findIssued := [], findDone := [], saving := [], saved := [], emitted := [] }

/-- The process exits on an unhandled rejection: every socket is dropped and no pending
callback will run.  Collection and in-flight inserts stay as they are. -/
def crash (s : State) : State :=
  { s with exited := true, openSockets := [], findIssued := [], findDone := [] }

/-- The atomic steps of a run. -/
inductive Action where
  | tick
  | connect
  | findRead (c : SocketId) (h : List Message)
  | findFail (c : SocketId)
  | initEmit (c : SocketId)
  | receive (c : SocketId) (msg : Msg) (oid : Nat)
  | saveCommit (i : Nat)
  | saveFail (i : Nat)
  | resume (i : Nat)
  | disconnect (c : SocketId)
deriving DecidableEq, Repr

/-- The in-flight entry holding the document with `_id` `i`. -/
def lookupDoc (i : Nat) (l : List (SocketId × Message)) : Option (SocketId × Message) :=
  l.find? (fun p => p.2.id == i)

/-- Drop the in-flight entries holding the document with `_id` `i`. -/
def dropDoc (i : Nat) (l : List (SocketId × Message)) : List (SocketId × Message) :=
  l.filter (fun p => p.2.id != i)

/-- The pending query result for socket `c`. -/
def lookupFind (c : SocketId) (l : List (SocketId × List Message)) :
    Option (SocketId × List Message) :=
  l.find? (fun p => p.1 == c)

/-- What a step does; `none` when it cannot happen in `s`.  Whether the process is still
there to take the step is checked by `step`. -/
def act (s : State) : Action → Option State
  | .tick => some { s with now := s.now + 1 }
  -- lines 93-97: the socket joins the connected ones and its history read is issued
  | .connect =>
      some { s with
        nextConn := s.nextConn + 1
        openSockets := s.openSockets ++ [s.nextConn]
        findIssued := s.findIssued ++ [s.nextConn] }
  -- the database answers `Message.find()`: all documents, in some order
  | .findRead c h =>
      if c ∈ s.findIssued ∧ h.isPerm s.store = true then
        some { s with
          findIssued := s.findIssued.filter (fun d => d != c)
          findDone := s.findDone ++ [(c, h)] }
      else none
  -- line 97 rejects and has no handler
  | .findFail c =>
      if c ∈ s.findIssued then some (crash s) else none
  -- line 98
  | .initEmit c =>
      match lookupFind c s.findDone with
      | some (_, messages) =>
          some { s with
            findDone := s.findDone.filter (fun p => p.1 != c)
            emitted := s.emitted ++ [⟨[c], .init messages⟩] }
      | none => none
  -- lines 102-109, up to the `await`; a payload no document can be built from rejects
  -- the handler's promise, which has no handler
  | .receive c msg oid =>
      if c ∈ s.openSockets ∧ oid ∉ s.store.map (fun m => m.id) ∧
          oid ∉ s.saving.map (fun p => p.2.id) then
        match newMessage oid s.now msg with
        | some m => some { s with saving := s.saving ++ [(c, m)] }
        | none => some (crash s)
      else none
  -- the database inserts the document
  | .saveCommit i =>
      match lookupDoc i s.saving with
      | some (c, m) =>
          some { s with
            store := s.store ++ [m]
            saving := dropDoc i s.saving
            saved := s.saved ++ [(c, m)] }
      | none => none
  -- line 109 throws inside the handler, whose promise has no handler
  | .saveFail i =>
      match lookupDoc i s.saving with
      | some _ => some (crash { s with saving := dropDoc i s.saving })
      | none => none
  -- line 110
  | .resume i =>
      match lookupDoc i s.saved with
      | some (_, m) =>
          some { s with
            saved := dropDoc i s.saved
            emitted := s.emitted ++ [⟨s.openSockets, .message m⟩] }
      | none => none
  -- lines 113-115: the handler only logs; the socket leaves the connected ones
  | .disconnect c =>
      if c ∈ s.openSockets then
        some { s with openSockets := s.openSockets.filter (fun d => d != c) }
      else none

/-- The steps that need no server process: those of the clock and of the database
inserting a document already in flight. -/
def survives : Action → Bool
  | .tick => true
  | .saveCommit _ => true
  | _ => false

/-- One step of a run; `none` when the step cannot happen in `s`.  After the process has
exited only the steps of `survives` are left. -/
def step (s : State) (a : Action) : Option State :=
  if s.exited = true ∧ survives a = false then none else act s a

/-- A run: the steps of `acts` one after the other, `none` as soon as one of
them cannot happen. -/
def run (s : State) : List Action → Option State
  | [] => some s
  | a :: acts =>
      match step s a with
      | some t => run t acts
      | none => none

/-- The events addressed to socket `c`, oldest first. -/
def outbox (c : SocketId) (es : List Emission) : List Event :=
  es.filterMap (fun e => if c ∈ e.targets then some e.event else none)

/-- The documents carried by the `'message'` events of a list of events. -/
def messagesOf : List Event → List Message
  | [] => []
  | .message m :: evs => m :: messagesOf evs
  | .init _ :: evs => messagesOf evs

/-- The documents broadcast by `io.emit('message', ...)`, in the order of the calls. -/
def broadcasts (es : List Emission) : List Message :=
  messagesOf (es.map (fun e => e.event))

/-- The `'init'` payload of a socket followed by the documents of the
`'message'` events it is sent after that `'init'`; `none` when the socket
has been sent no `'init'`. -/
def historyView : List Event → Option (List Message)
  | [] => none
  | .init h :: evs => some (h ++ messagesOf evs)
  | .message _ :: evs => historyView evs

/-- The `_id`s of the documents committed by the steps of a run, in order. -/
def committedIds : List Action → List Nat
  | [] => []
  | .saveCommit i :: acts => i :: committedIds acts
  | _ :: acts => committedIds acts

/-- The `_id`s of the documents whose handler resumed in a run, in order. -/
def resumedIds : List Action → List Nat
  | [] => []
  | .resume i :: acts => i :: resumedIds acts
  | _ :: acts => resumedIds acts

/-- Number of sockets accepted by a run. -/
def acceptedCount : List Action → Nat
  | [] => 0
  | .connect :: acts => acceptedCount acts + 1
  | _ :: acts => acceptedCount acts

/-- The sockets closed by a run. -/
def closedSockets : List Action → List SocketId
  | [] => []
  | .disconnect c :: acts => c :: closedSockets acts
  | _ :: acts => closedSockets acts

/-- The sockets addressed by the `'init'` emissions, oldest first. -/
def initTargets : List Emission → List SocketId
  | [] => []
  | ⟨t, .init _⟩ :: es => t ++ initTargets es
  | ⟨_, .message _⟩ :: es => initTargets es

/-- The payloads of the `'init'` events of a list of events. -/
def initsOf : List Event → List (List Message)
  | [] => []
  | .init h :: evs => h :: initsOf evs
  | .message _ :: evs => initsOf evs

/-- A stretch of a run in which the database inserts no document and no handler resumes. -/
def quiet : List Action → Bool
  | [] => true
  | .saveCommit _ :: _ => false
  | .resume _ :: _ => false
  | _ :: acts => quiet acts

/-- A stretch of a run in which every insert is followed at once by the broadcast of the
inserted document, and no broadcast happens otherwise. -/
def serial : List Action → Bool
  | [] => true
  | .saveCommit i :: .resume j :: acts => i == j && serial acts
  | .saveCommit _ :: _ => false
  | .resume _ :: _ => false
  | _ :: acts => serial acts

/-! ## The client (`App.js`, lines 32-39) -/

/-- The handler of `'init'` (line 34): `setMessages(messages)`. -/
def onInit (_prevMessages : List Message) (messages : List Message) : List Message :=
  messages

/-- The handler of `'message'` (line 38): `[...prevMessages, msg]`. -/
def onMessage (prevMessages : List Message) (msg : Message) : List Message :=
  prevMessages ++ [msg]

/-- The state update an event causes in the client. -/
def clientStep (prevMessages : List Message) : Event → List Message
  | .init messages => onInit prevMessages messages
  | .message msg => onMessage prevMessages msg

/-- The client's `messages` after a sequence of events, from `useState([])`. -/
def clientRun (evs : List Event) : List Message :=
  evs.foldl clientStep []

/-! ## Sample payloads and runs -/

/-- The payload `App.js` builds (lines 70-75) for a text without attachment. -/
def textMsg (user text : String) : Msg :=
  .object [("user", .str user), ("message", .str text), ("file", .null), ("fileType", .null)]

/-- The document built from `textMsg user text`. -/
def textDoc (oid now : Nat) (user text : String) : Message :=
  { id := oid, user := .str user, message := .str text, file := .null, fileType := .null
    timestamp := now }

/-- A text message from alice. -/
def hiMsg : Msg := textMsg "alice" "hi"

/-- A second text message from alice. -/
def yoMsg : Msg := textMsg "alice" "yo"

/-- An object payload with no property at all: no author, no body, no attachment. -/
def blankMsg : Msg := .object []

/-- The document built from `blankMsg`. -/
def blankDoc (oid now : Nat) : Message :=
  { id := oid, user := .undefined, message := .undefined, file := .undefined
    fileType := .undefined, timestamp := now }

/-- One socket sends two messages; the second is inserted and broadcast while the first
is still being saved. -/
def overtakeRun : List Action :=
  [.connect, .receive 0 hiMsg 0, .receive 0 yoMsg 1, .saveCommit 1, .resume 1]

/-- The state `overtakeRun` leads to from an empty collection. -/
def overtakeState : State :=
  { exited := false, nextConn := 1, openSockets := [0], now := 0
    store := [textDoc 1 0 "alice" "yo"]
    findIssued := [0], findDone := []
    saving := [(0, textDoc 0 0 "alice" "hi")]
    saved := []
    emitted := [⟨[0], .message (textDoc 1 0 "alice" "yo")⟩] }

/-- Two sockets send one message each; the messages are inserted in the order of their
arrival and the handlers resume in the opposite order. -/
def swapRun : List Action :=
  [.connect, .connect, .receive 0 hiMsg 0, .receive 1 yoMsg 1, .saveCommit 0, .saveCommit 1,
    .resume 1, .resume 0]

/-- The state `swapRun` leads to from an empty collection. -/
def swapState : State :=
  { exited := false, nextConn := 2, openSockets := [0, 1], now := 0
    store := [textDoc 0 0 "alice" "hi", textDoc 1 0 "alice" "yo"]
    findIssued := [0, 1], findDone := [], saving := [], saved := []
    emitted := [⟨[0, 1], .message (textDoc 1 0 "alice" "yo")⟩,
      ⟨[0, 1], .message (textDoc 0 0 "alice" "hi")⟩] }

/-- One socket sends the blank payload; it is saved and the handler resumes. -/
def blankRun : List Action :=
  [.connect, .receive 0 blankMsg 0, .saveCommit 0, .resume 0]

/-- The state `blankRun` leads to from an empty collection. -/
def blankState : State :=
  { exited := false, nextConn := 1, openSockets := [0], now := 0
    store := [blankDoc 0 0]
    findIssued := [0], findDone := [], saving := [], saved := []
    emitted := [⟨[0], .message (blankDoc 0 0)⟩] }

/-- Two sockets are connected and nothing else has happened. -/
def twoSockets : State :=
  { exited := false, nextConn := 2, openSockets := [0, 1], now := 0, store := []
    findIssued := [0, 1], findDone := [], saving := [], saved := [], emitted := [] }

/-- Two sockets are connected; the first sends a message whose save is rejected. -/
def rejectRun : List Action :=
  [.connect, .connect, .receive 0 hiMsg 0, .saveFail 0]

/-- The state `rejectRun` leads to from an empty collection: the process has exited. -/
def rejectState : State :=
  { exited := true, nextConn := 2, openSockets := [], now := 0, store := []
    findIssued := [], findDone := [], saving := [], saved := [], emitted := [] }

/-- Two sockets are connected and the first has a save in flight. -/
def inFlightState : State :=
  { exited := false, nextConn := 2, openSockets := [0, 1], now := 0, store := []
    findIssued := [0, 1], findDone := [], saving := [(0, textDoc 0 0 "alice" "hi")]
    saved := [], emitted := [] }

/-- A second socket joins after a message of the first has been inserted. -/
def joinRun : List Action :=
  [.connect, .receive 0 hiMsg 0, .saveCommit 0, .connect]

/-- The state `joinRun` leads to from an empty collection. -/
def joinState : State :=
  { exited := false, nextConn := 2, openSockets := [0, 1], now := 0
    store := [textDoc 0 0 "alice" "hi"]
    findIssued := [0, 1], findDone := [], saving := []
    saved := [(0, textDoc 0 0 "alice" "hi")]
    emitted := [] }

/-- The first of two sockets sends a message and is closed while the message is being
saved; then the message is inserted. -/
def departRun : List Action :=
  [.connect, .connect, .receive 0 hiMsg 0, .disconnect 0, .saveCommit 0]

/-- The state `departRun` leads to from an empty collection. -/
def departState : State :=
  { exited := false, nextConn := 2, openSockets := [1], now := 0
    store := [textDoc 0 0 "alice" "hi"]
    findIssued := [0, 1], findDone := [], saving := []
    saved := [(0, textDoc 0 0 "alice" "hi")]
    emitted := [] }

/-- After `departRun` the second socket sends a message whose save is rejected. -/
def orphanRun : List Action :=
  departRun ++ [.receive 1 yoMsg 1, .saveFail 1]

/-- The state `orphanRun` leads to from an empty collection: the message of the first
socket is in the store, its handler has not resumed, and the process has exited. -/
def orphanState : State :=
  { exited := true, nextConn := 2, openSockets := [], now := 0
    store := [textDoc 0 0 "alice" "hi"]
    findIssued := [], findDone := [], saving := []
    saved := [(0, textDoc 0 0 "alice" "hi")]
    emitted := [] }

/-- Two messages arrive one clock tick apart and are inserted in the opposite order; then
a second socket joins, and its history read returns the collection in its order. -/
def newestFirstRun : List Action :=
  [.connect, .receive 0 hiMsg 0, .tick, .receive 0 yoMsg 1, .saveCommit 1, .saveCommit 0,
    .connect, .findRead 1 [textDoc 1 1 "alice" "yo", textDoc 0 0 "alice" "hi"], .initEmit 1]

/-- The state `newestFirstRun` leads to from an empty collection. -/
def newestFirstState : State :=
  { exited := false, nextConn := 2, openSockets := [0, 1], now := 1
    store := [textDoc 1 1 "alice" "yo", textDoc 0 0 "alice" "hi"]
    findIssued := [0], findDone := [], saving := []
    saved := [(0, textDoc 1 1 "alice" "yo"), (0, textDoc 0 0 "alice" "hi")]
    emitted := [⟨[1], .init [textDoc 1 1 "alice" "yo", textDoc 0 0 "alice" "hi"]⟩] }

/-- The state after a socket has joined and its history read has been rejected: the
process has exited. -/
def failedReadState : State :=
  { exited := true, nextConn := 1, openSockets := [], now := 0, store := []
    findIssued := [], findDone := [], saving := [], saved := [], emitted := [] }

/-- A second socket joins; its history is read before a message is inserted, and its
`'init'` is emitted after that message has been broadcast. -/
def lateInitRun : List Action :=
  [.connect, .receive 0 hiMsg 0, .connect, .findRead 1 [], .saveCommit 0, .resume 0,
    .initEmit 1]

/-- The state `lateInitRun` leads to from an empty collection. -/
def lateInitState : State :=
  { exited := false, nextConn := 2, openSockets := [0, 1], now := 0
    store := [textDoc 0 0 "alice" "hi"]
    findIssued := [0], findDone := [], saving := [], saved := []
    emitted := [⟨[0, 1], .message (textDoc 0 0 "alice" "hi")⟩, ⟨[1], .init []⟩] }

/-- A second socket joins; its history is read after a message has been inserted, and its
`'init'` is emitted before that message is broadcast. -/
def earlyReadRun : List Action :=
  [.connect, .receive 0 hiMsg 0, .saveCommit 0, .connect,
    .findRead 1 [textDoc 0 0 "alice" "hi"], .initEmit 1, .resume 0]

/-- The state `earlyReadRun` leads to from an empty collection. -/
def earlyReadState : State :=
  { exited := false, nextConn := 2, openSockets := [0, 1], now := 0
    store := [textDoc 0 0 "alice" "hi"]
    findIssued := [0], findDone := [], saving := [], saved := []
    emitted := [⟨[1], .init [textDoc 0 0 "alice" "hi"]⟩,
      ⟨[0, 1], .message (textDoc 0 0 "alice" "hi")⟩] }

/-- A message an earlier run has left in the collection. -/
def oldDoc : Message := textDoc 9 0 "bob" "hello"

/-- A socket sends a message, which is inserted and broadcast; then a second socket is
accepted. -/
def quietPre : List Action :=
  [.connect, .receive 0 hiMsg 0, .saveCommit 0, .resume 0, .connect]

/-- The state `quietPre` leads to from the collection `[oldDoc]`. -/
def quietJoin : State :=
  { exited := false, nextConn := 2, openSockets := [0, 1], now := 0
    store := [oldDoc, textDoc 0 0 "alice" "hi"]
    findIssued := [0, 1], findDone := [], saving := [], saved := []
    emitted := [⟨[0], .message (textDoc 0 0 "alice" "hi")⟩] }

/-- The second socket sends a message, which is inserted and broadcast. -/
def quietPost : List Action :=
  [.receive 1 yoMsg 1, .saveCommit 1, .resume 1]

/-- The state reached from `quietJoin` by the history read of the second socket, its
`'init'` and `quietPost`. -/
def quietState : State :=
  { exited := false, nextConn := 2, openSockets := [0, 1], now := 0
    store := [oldDoc, textDoc 0 0 "alice" "hi", textDoc 1 0 "alice" "yo"]
    findIssued := [0], findDone := [], saving := [], saved := []
    emitted := [⟨[0], .message (textDoc 0 0 "alice" "hi")⟩,
      ⟨[1], .init [oldDoc, textDoc 0 0 "alice" "hi"]⟩,
      ⟨[0, 1], .message (textDoc 1 0 "alice" "yo")⟩] }

/-- A payload whose author is a number and whose body is a boolean. -/
def scalarMsg : Msg := .object [("user", .num "5"), ("message", .bool true)]

/-- Two messages are inserted and broadcast one after the other; then a second socket
joins, and its history read returns the two stored messages in the other order. -/
def shuffledRun : List Action :=
  [.connect, .receive 0 hiMsg 0, .saveCommit 0, .resume 0, .receive 0 yoMsg 1, .saveCommit 1,
    .resume 1, .connect,
    .findRead 1 [textDoc 1 0 "alice" "yo", textDoc 0 0 "alice" "hi"], .initEmit 1]

/-- The state `shuffledRun` leads to from an empty collection. -/
def shuffledState : State :=
  { exited := false, nextConn := 2, openSockets := [0, 1], now := 0
    store := [textDoc 0 0 "alice" "hi", textDoc 1 0 "alice" "yo"]
    findIssued := [0], findDone := [], saving := [], saved := []
    emitted := [⟨[0], .message (textDoc 0 0 "alice" "hi")⟩,
      ⟨[0], .message (textDoc 1 0 "alice" "yo")⟩,
      ⟨[1], .init [textDoc 1 0 "alice" "yo", textDoc 0 0 "alice" "hi"]⟩] }

/-! ## Invariants -/

/-- What holds of the documents in every state of a run. -/
structure DocInv (s : State) : Prop where
  savingNodup : (s.saving.map (fun p => p.2.id)).Nodup
  savingFresh : ∀ p ∈ s.saving, p.2.id ∉ s.store.map (fun m => m.id)
  savedStored : ∀ p ∈ s.saved, p.2 ∈ s.store
  castStored : ∀ m ∈ broadcasts s.emitted, m ∈ s.store
  castNodup :
    ((broadcasts s.emitted).map (fun m => m.id) ++ s.saved.map (fun p => p.2.id)).Nodup

/-- Once a socket of `sockets` has been addressed by an emission of `es`, every later
`'message'` emission of `es` addresses it as well. -/
def StillOpen (sockets : List SocketId) (es : List Emission) : Prop :=
  ∀ c ∈ sockets, ∀ E1 x E2, es = E1 ++ x :: E2 →
    c ∈ x.targets → ∀ e ∈ E2, ∀ m, e.event = .message m → c ∈ e.targets

/-- What holds of the sockets and of the history reads in every state of a run. -/
structure SockInv (s : State) : Prop where
  openLt : ∀ c ∈ s.openSockets, c < s.nextConn
  openNodup : s.openSockets.Nodup
  issuedLt : ∀ c ∈ s.findIssued, c < s.nextConn
  doneLt : ∀ p ∈ s.findDone, p.1 < s.nextConn
  targetsLt : ∀ e ∈ s.emitted, ∀ c ∈ e.targets, c < s.nextConn
  initOnce :
    ((initTargets s.emitted ++ s.findDone.map (fun p => p.1)) ++ s.findIssued).Nodup
  initAlone : ∀ e ∈ s.emitted, ∀ h, e.event = .init h → ∃ c, e.targets = [c]
  stillOpen : StillOpen s.openSockets s.emitted

/-- After the process has exited: `u` is a state a run can reach from the exited state
`s`.  Nothing is emitted, no socket is connected, and the collection grows only by
documents that were in flight. -/
def After (s u : State) : Prop :=
  u.exited = true ∧ u.emitted = s.emitted ∧ u.openSockets = s.openSockets ∧
    (∀ p ∈ u.saving, p ∈ s.saving) ∧
    ∀ x ∈ u.store, x ∈ s.store ∨ ∃ p ∈ s.saving, p.2 = x

/-! ## Elementary facts about the definitions -/

theorem lookupDoc_some {i : Nat} {l : List (SocketId × Message)} {p : SocketId × Message}
    (h : lookupDoc i l = some p) : p ∈ l ∧ p.2.id = i := by
  unfold lookupDoc at h
  refine ⟨List.mem_of_find?_eq_some h, ?_⟩
  have := List.find?_some h
  simpa using this

theorem mem_dropDoc {i : Nat} {l : List (SocketId × Message)} {q : SocketId × Message} :
    q ∈ dropDoc i l ↔ q ∈ l ∧ q.2.id ≠ i := by
  simp [dropDoc, List.mem_filter]

theorem dropDoc_sublist (i : Nat) (l : List (SocketId × Message)) :
    List.Sublist (dropDoc i l) l := by
  unfold dropDoc
  exact List.filter_sublist l

theorem lookupDoc_of_mem {l : List (SocketId × Message)} {p : SocketId × Message}
    (hp : p ∈ l) (hn : (l.map (fun q => q.2.id)).Nodup) : lookupDoc p.2.id l = some p := by
  induction l with
  | nil => simp at hp
  | cons q l ih =>
    simp only [List.map_cons, List.nodup_cons, List.mem_map, not_exists, not_and] at hn
    rcases List.mem_cons.1 hp with rfl | hmem
    · simp [lookupDoc]
    · have hne : q.2.id ≠ p.2.id := fun e => hn.1 p hmem e.symm
      have hb : (q.2.id == p.2.id) = false := by simpa using hne
      have := ih hmem hn.2
      unfold lookupDoc at this ⊢
      rw [List.find?_cons]
      simp only [hb]
      exact this

theorem lookupFind_some {c : SocketId} {l : List (SocketId × List Message)}
    {p : SocketId × List Message} (h : lookupFind c l = some p) : p ∈ l ∧ p.1 = c := by
  unfold lookupFind at h
  refine ⟨List.mem_of_find?_eq_some h, ?_⟩
  have := List.find?_some h
  simpa using this

theorem messagesOf_append (xs ys : List Event) :
    messagesOf (xs ++ ys) = messagesOf xs ++ messagesOf ys := by
  induction xs with
  | nil => rfl
  | cons e xs ih => cases e <;> simp [messagesOf, ih]

theorem broadcasts_append (xs ys : List Emission) :
    broadcasts (xs ++ ys) = broadcasts xs ++ broadcasts ys := by
  simp [broadcasts, messagesOf_append]

theorem broadcasts_snoc_init (es : List Emission) (t : List SocketId) (h : List Message) :
    broadcasts (es ++ [⟨t, .init h⟩]) = broadcasts es := by
  rw [broadcasts_append]
  simp [broadcasts, messagesOf]

theorem broadcasts_snoc_message (es : List Emission) (t : List SocketId) (m : Message) :
    broadcasts (es ++ [⟨t, .message m⟩]) = broadcasts es ++ [m] := by
  rw [broadcasts_append]
  simp [broadcasts, messagesOf]

theorem outbox_append (c : SocketId) (xs ys : List Emission) :
    outbox c (xs ++ ys) = outbox c xs ++ outbox c ys := by
  simp [outbox, List.filterMap_append]

theorem mem_broadcasts {es : List Emission} {m : Message} :
    m ∈ broadcasts es ↔ ∃ e ∈ es, e.event = .message m := by
  induction es with
  | nil => simp [broadcasts, messagesOf]
  | cons e es ih =>
    rcases e with ⟨t, ev⟩
    unfold broadcasts at ih ⊢
    cases ev with
    | init h => simp [messagesOf, ih]
    | message m2 =>
      simp only [List.map_cons, messagesOf, List.mem_cons, ih, exists_eq_or_imp,
        Event.message.injEq]
      constructor
      · rintro (h | h)
        · exact Or.inl h.symm
        · exact Or.inr h
      · rintro (h | h)
        · exact Or.inl h.symm
        · exact Or.inr h

theorem mem_outbox {c : SocketId} {es : List Emission} {ev : Event} :
    ev ∈ outbox c es ↔ ∃ e ∈ es, c ∈ e.targets ∧ e.event = ev := by
  simp [outbox, List.mem_filterMap]

theorem lookupFind_of_mem {l : List (SocketId × List Message)} {p : SocketId × List Message}
    (hp : p ∈ l) (hn : (l.map (fun q => q.1)).Nodup) : lookupFind p.1 l = some p := by
  induction l with
  | nil => simp at hp
  | cons q l ih =>
    simp only [List.map_cons, List.nodup_cons, List.mem_map, not_exists, not_and] at hn
    rcases List.mem_cons.1 hp with rfl | hmem
    · simp [lookupFind]
    · have hne : q.1 ≠ p.1 := fun e => hn.1 p hmem e.symm
      have hb : (q.1 == p.1) = false := by simpa using hne
      have := ih hmem hn.2
      unfold lookupFind at this ⊢
      rw [List.find?_cons]
      simp only [hb]
      exact this

theorem run_append (s : State) (xs ys : List Action) :
    run s (xs ++ ys) = (run s xs).bind (fun t => run t ys) := by
  induction xs generalizing s with
  | nil => rfl
  | cons a xs ih =>
    simp only [List.cons_append, run]
    cases step s a with
    | none => rfl
    | some t => exact ih t

theorem run_snoc {s t : State} {xs : List Action} {a : Action}
    (h : run s (xs ++ [a]) = some t) : ∃ u, run s xs = some u ∧ step u a = some t := by
  rw [run_append] at h
  cases hu : run s xs with
  | none => simp [hu] at h
  | some u =>
    refine ⟨u, rfl, ?_⟩
    simp only [hu, Option.some_bind, run] at h
    cases hs : step u a with
    | none => simp [hs] at h
    | some v => simpa [hs] using h

/-- Induction over the runs from `boot stored`, one step at a time. -/
theorem run_induction (stored : List Message) (P : List Action → State → Prop)
    (h0 : P [] (boot stored))
    (hstep : ∀ acts s a t, run (boot stored) acts = some s → P acts s → step s a = some t →
      P (acts ++ [a]) t) :
    ∀ acts s, run (boot stored) acts = some s → P acts s := by
  intro acts
  induction acts using List.reverseRecOn with
  | nil =>
    intro s h
    simp only [run, Option.some.injEq] at h
    subst h
    exact h0
  | append_singleton xs a ih =>
    intro s h
    obtain ⟨u, hu, hs⟩ := run_snoc h
    exact hstep xs u a s hu (ih u hu) hs

theorem mem_ids_dropDoc {i x : Nat} {l : List (SocketId × Message)}
    (h : x ∈ (dropDoc i l).map (fun p => p.2.id)) :
    x ∈ l.map (fun p => p.2.id) ∧ x ≠ i := by
  obtain ⟨q, hq, rfl⟩ := List.mem_map.1 h
  obtain ⟨hq1, hq2⟩ := mem_dropDoc.1 hq
  exact ⟨List.mem_map.2 ⟨q, hq1, rfl⟩, hq2⟩

theorem nodup_ids_dropDoc {i : Nat} {l : List (SocketId × Message)}
    (h : (l.map (fun p => p.2.id)).Nodup) : ((dropDoc i l).map (fun p => p.2.id)).Nodup :=
  h.sublist ((dropDoc_sublist i l).map _)

/-- Moving the document `i` from an in-flight list to the end of the list before it keeps
the `_id`s distinct. -/
theorem nodup_snoc_right {A B : List Nat} {x : Nat} (h : (A ++ B).Nodup)
    (hA : x ∉ A) (hB : x ∉ B) : (A ++ (B ++ [x])).Nodup := by
  rw [← List.append_assoc]
  rw [List.nodup_append]
  refine ⟨h, List.nodup_singleton x, ?_⟩
  intro y hy hy2
  rw [List.mem_singleton] at hy2
  subst hy2
  rcases List.mem_append.1 hy with h1 | h1
  · exact hA h1
  · exact hB h1

theorem initTargets_append (xs ys : List Emission) :
    initTargets (xs ++ ys) = initTargets xs ++ initTargets ys := by
  induction xs with
  | nil => rfl
  | cons e xs ih =>
    rcases e with ⟨t, ev⟩
    cases ev <;> simp [initTargets, ih]

theorem initTargets_snoc_init (es : List Emission) (t : List SocketId) (h : List Message) :
    initTargets (es ++ [⟨t, .init h⟩]) = initTargets es ++ t := by
  rw [initTargets_append]
  simp [initTargets]

theorem initTargets_snoc_message (es : List Emission) (t : List SocketId) (m : Message) :
    initTargets (es ++ [⟨t, .message m⟩]) = initTargets es := by
  rw [initTargets_append]
  simp [initTargets]

theorem mem_initTargets {es : List Emission} {c : SocketId} (h : c ∈ initTargets es) :
    ∃ e ∈ es, c ∈ e.targets := by
  induction es with
  | nil => simp [initTargets] at h
  | cons e es ih =>
    rcases e with ⟨t, ev⟩
    cases ev with
    | init h2 =>
      simp only [initTargets, List.mem_append] at h
      rcases h with h | h
      · exact ⟨_, List.mem_cons_self _ _, h⟩
      · obtain ⟨e, he, hc⟩ := ih h
        exact ⟨e, List.mem_cons_of_mem _ he, hc⟩
    | message m =>
      simp only [initTargets] at h
      obtain ⟨e, he, hc⟩ := ih h
      exact ⟨e, List.mem_cons_of_mem _ he, hc⟩

theorem nodup_move_gen {A B C : List Nat} {i : Nat} (h : (A ++ B).Nodup) (hi : i ∈ B)
    (hsub : List.Sublist C B) (hni : i ∉ C) : ((A ++ [i]) ++ C).Nodup := by
  rw [List.nodup_append] at h
  obtain ⟨hA, hB, hd⟩ := h
  have hiA : i ∉ A := fun hm => hd hm hi
  rw [List.nodup_append]
  refine ⟨?_, hB.sublist hsub, ?_⟩
  · rw [List.nodup_append]
    refine ⟨hA, List.nodup_singleton i, ?_⟩
    intro x hx hx2
    rw [List.mem_singleton] at hx2
    subst hx2
    exact hiA hx
  · intro x hx hx2
    rcases List.mem_append.1 hx with hx5 | hx5
    · exact hd hx5 (hsub.subset hx2)
    · rw [List.mem_singleton] at hx5
      subst hx5
      exact hni hx2

theorem nodup_append_of_subset {X Y I : List Nat} (h : (Y ++ I).Nodup) (hX : X.Nodup)
    (hsub : X ⊆ Y) : (X ++ I).Nodup := by
  rw [List.nodup_append] at h ⊢
  exact ⟨hX, h.2.1, fun x hx hx2 => h.2.2 (hsub hx) hx2⟩

theorem snoc_split {α : Type} {E1 E2 es : List α} {x e : α}
    (h : es ++ [e] = E1 ++ x :: E2) :
    E2 = [] ∨ ∃ L, E2 = L ++ [e] ∧ es = E1 ++ x :: L := by
  rcases List.eq_nil_or_concat E2 with rfl | ⟨L, b, hE⟩
  · exact Or.inl rfl
  · right
    rw [List.concat_eq_append] at hE
    subst hE
    have h2 : es ++ [e] = (E1 ++ x :: L) ++ [b] := by
      rw [h]
      simp
    obtain ⟨h3, h4⟩ := List.append_inj' h2 rfl
    simp only [List.cons.injEq, and_true] at h4
    subst h4
    exact ⟨L, rfl, h3⟩

theorem stillOpen_snoc {sockets : List SocketId} {es : List Emission} {e : Emission}
    (h : StillOpen sockets es)
    (he : ∀ m, e.event = .message m → ∀ c ∈ sockets, c ∈ e.targets) :
    StillOpen sockets (es ++ [e]) := by
  intro c hc E1 x E2 hsplit hx e2 he2 m hm
  rcases snoc_split hsplit with rfl | ⟨L, rfl, hes⟩
  · simp at he2
  · rcases List.mem_append.1 he2 with h1 | h1
    · exact h c hc E1 x L hes hx e2 h1 m hm
    · rw [List.mem_singleton] at h1
      subst h1
      exact he m hm c hc

theorem newMessage_some {oid now : Nat} {msg : Msg} {m : Message}
    (h : newMessage oid now msg = some m) : m.id = oid ∧ m.timestamp = now := by
  unfold newMessage at h
  split at h
  · split at h
    · simp only [Option.some.injEq] at h
      subst h
      exact ⟨rfl, rfl⟩
    · simp at h
  · simp at h

/-! ## Steps -/

theorem step_act {s t : State} {a : Action} (h : step s a = some t) : act s a = some t := by
  unfold step at h
  split at h
  · simp at h
  · exact h

theorem step_running {s : State} (a : Action) (hx : s.exited = false) :
    step s a = act s a := by
  simp [step, hx]

theorem step_survives {s : State} (a : Action) (ha : survives a = true) :
    step s a = act s a := by
  simp [step, ha]

theorem step_exited {s t : State} {a : Action} (hx : s.exited = true)
    (h : step s a = some t) : survives a = true := by
  unfold step at h
  split at h
  · simp at h
  · rename_i hn
    cases hsv : survives a with
    | true => rfl
    | false => exact absurd ⟨hx, hsv⟩ hn

/-- Moving the document `i` from an in-flight list to the end of the list before it keeps
the `_id`s distinct. -/
theorem nodup_move {A : List Nat} {l : List (SocketId × Message)} {i : Nat}
    (h : (A ++ l.map (fun p => p.2.id)).Nodup) (hi : i ∈ l.map (fun p => p.2.id)) :
    ((A ++ [i]) ++ (dropDoc i l).map (fun p => p.2.id)).Nodup := by
  rw [List.nodup_append] at h
  obtain ⟨hA, hL, hd⟩ := h
  have hiA : i ∉ A := fun hm => hd hm hi
  rw [List.nodup_append]
  refine ⟨?_, nodup_ids_dropDoc hL, ?_⟩
  · rw [List.nodup_append]
    refine ⟨hA, List.nodup_singleton i, ?_⟩
    intro x hx hx2
    rw [List.mem_singleton] at hx2
    subst hx2
    exact hiA hx
  · intro x hx hx2
    obtain ⟨hx3, hx4⟩ := mem_ids_dropDoc hx2
    rcases List.mem_append.1 hx with hx5 | hx5
    · exact hd hx5 hx3
    · exact hx4 (List.mem_singleton.1 hx5)


/-! ## The invariants hold in every run -/

theorem docInv_boot (stored : List Message) : DocInv (boot stored) := by
  constructor <;> simp [boot, broadcasts, messagesOf]

theorem docInv_act {s t : State} {a : Action} (hi : DocInv s) (hs : act s a = some t) :
    DocInv t := by
  obtain ⟨h1, h2, h3, h4, h5⟩ := hi
  cases a with
  | tick =>
    simp only [act, Option.some.injEq] at hs
    subst hs
    exact ⟨h1, h2, h3, h4, h5⟩
  | connect =>
    simp only [act, Option.some.injEq] at hs
    subst hs
    exact ⟨h1, h2, h3, h4, h5⟩
  | findRead d h0 =>
    simp only [act] at hs
    split at hs
    · rename_i hg
      simp only [Option.some.injEq] at hs
      subst hs
      exact ⟨h1, h2, h3, h4, h5⟩
    · simp at hs
  | findFail d =>
    simp only [act] at hs
    split at hs
    · rename_i hg
      simp only [Option.some.injEq] at hs
      subst hs
      exact ⟨h1, h2, h3, h4, h5⟩
    · simp at hs
  | initEmit d =>
    simp only [act] at hs
    split at hs
    · rename_i c2 h0 hl
      simp only [Option.some.injEq] at hs
      subst hs
      refine ⟨h1, h2, h3, ?_, ?_⟩
      · rw [broadcasts_snoc_init]
        exact h4
      · rw [broadcasts_snoc_init]
        exact h5
    · simp at hs
  | receive d msg oid =>
    simp only [act] at hs
    split at hs
    · rename_i hg
      split at hs
      · rename_i m0 hm0
        simp only [Option.some.injEq] at hs
        subst hs
        have hid : m0.id = oid := (newMessage_some hm0).1
        refine ⟨?_, ?_, h3, h4, h5⟩
        · simp only [List.map_append, List.map_cons, List.map_nil]
          rw [List.nodup_append]
          refine ⟨h1, List.nodup_singleton _, ?_⟩
          intro x hx hx2
          rw [List.mem_singleton] at hx2
          subst hx2
          exact hg.2.2 (hid ▸ hx)
        · intro p hp
          rcases List.mem_append.1 hp with hp | hp
          · exact h2 p hp
          · rw [List.mem_singleton] at hp
            subst hp
            exact hid ▸ hg.2.1
      · simp only [Option.some.injEq] at hs
        subst hs
        exact ⟨h1, h2, h3, h4, h5⟩
    · simp at hs
  | saveCommit j =>
    simp only [act] at hs
    split at hs
    · rename_i c0 m0 hl
      simp only [Option.some.injEq] at hs
      subst hs
      obtain ⟨hmem, hid⟩ := lookupDoc_some hl
      simp only at hid
      have hnew : j ∉ s.store.map (fun m => m.id) := hid ▸ h2 _ hmem
      refine ⟨nodup_ids_dropDoc h1, ?_, ?_, ?_, ?_⟩
      · intro p hp hm
        obtain ⟨hp1, hp2⟩ := mem_dropDoc.1 hp
        simp only [List.map_append, List.map_cons, List.map_nil, List.mem_append,
          List.mem_singleton] at hm
        rcases hm with hm | hm
        · exact h2 p hp1 hm
        · exact hp2 (hm.trans hid)
      · intro p hp
        rcases List.mem_append.1 hp with hp | hp
        · exact List.mem_append_left _ (h3 p hp)
        · rw [List.mem_singleton] at hp
          subst hp
          simp
      · intro x hx
        exact List.mem_append_left _ (h4 x hx)
      · simp only [List.map_append, List.map_cons, List.map_nil]
        refine nodup_snoc_right h5 ?_ ?_
        · intro hm
          obtain ⟨x, hx1, hx2⟩ := List.mem_map.1 hm
          exact hnew (List.mem_map.2 ⟨x, h4 x hx1, hx2.trans hid⟩)
        · intro hm
          obtain ⟨p, hp1, hp2⟩ := List.mem_map.1 hm
          exact hnew (List.mem_map.2 ⟨p.2, h3 p hp1, hp2.trans hid⟩)
    · simp at hs
  | saveFail j =>
    simp only [act] at hs
    split at hs
    · rename_i p0 hl
      simp only [Option.some.injEq] at hs
      subst hs
      refine ⟨nodup_ids_dropDoc h1, ?_, h3, h4, h5⟩
      intro p hp
      exact h2 p (mem_dropDoc.1 hp).1
    · simp at hs
  | resume j =>
    simp only [act] at hs
    split at hs
    · rename_i c0 m0 hl
      simp only [Option.some.injEq] at hs
      subst hs
      obtain ⟨hmem, hid⟩ := lookupDoc_some hl
      simp only at hid
      have himem : j ∈ s.saved.map (fun p => p.2.id) := List.mem_map.2 ⟨(c0, m0), hmem, hid⟩
      refine ⟨h1, h2, ?_, ?_, ?_⟩
      · intro p hp
        exact h3 p (mem_dropDoc.1 hp).1
      · intro x hx
        rw [broadcasts_snoc_message] at hx
        rcases List.mem_append.1 hx with hx | hx
        · exact h4 x hx
        · rw [List.mem_singleton] at hx
          subst hx
          exact h3 _ hmem
      · have := nodup_move h5 himem
        rw [broadcasts_snoc_message, List.map_append, List.map_cons, List.map_nil]
        simpa [hid] using this
    · simp at hs
  | disconnect d =>
    simp only [act] at hs
    split at hs
    · rename_i hg
      simp only [Option.some.injEq] at hs
      subst hs
      exact ⟨h1, h2, h3, h4, h5⟩
    · simp at hs

theorem docInv_step {s t : State} {a : Action} (hi : DocInv s) (hs : step s a = some t) :
    DocInv t :=
  docInv_act hi (step_act hs)

theorem docInv_run {s t : State} {acts : List Action} (hi : DocInv s)
    (hr : run s acts = some t) : DocInv t := by
  induction acts generalizing s with
  | nil =>
    simp only [run, Option.some.injEq] at hr
    subst hr
    exact hi
  | cons a acts ih =>
    simp only [run] at hr
    cases hs : step s a with
    | none => simp [hs] at hr
    | some u =>
      simp only [hs] at hr
      exact ih (docInv_step hi hs) hr

theorem docInv_reachable {stored : List Message} {acts : List Action} {s : State}
    (hr : run (boot stored) acts = some s) : DocInv s :=
  docInv_run (docInv_boot stored) hr

theorem sockInv_boot (stored : List Message) : SockInv (boot stored) := by
  constructor <;> simp [boot, initTargets, StillOpen]

theorem sockInv_act {s t : State} {a : Action} (hi : SockInv s) (hs : act s a = some t) :
    SockInv t := by
  obtain ⟨h1, h2, h3, h4, h5, h6, h9, h10⟩ := hi
  cases a with
  | tick =>
    simp only [act, Option.some.injEq] at hs
    subst hs
    exact ⟨h1, h2, h3, h4, h5, h6, h9, h10⟩
  | connect =>
    simp only [act, Option.some.injEq] at hs
    subst hs
    have hfresh : ∀ E1 x E2, s.emitted = E1 ++ x :: E2 → s.nextConn ∉ x.targets := by
      intro E1 x E2 hsplit hx
      have hmem : x ∈ s.emitted := by
        rw [hsplit]
        simp
      exact Nat.lt_irrefl _ (h5 x hmem _ hx)
    refine ⟨?_, ?_, ?_, ?_, ?_, ?_, h9, ?_⟩
    · intro c hc
      rcases List.mem_append.1 hc with hc | hc
      · exact Nat.lt_succ_of_lt (h1 c hc)
      · rw [List.mem_singleton] at hc
        subst hc
        exact Nat.lt_succ_self _
    · rw [List.nodup_append]
      refine ⟨h2, List.nodup_singleton _, ?_⟩
      intro x hx hx2
      rw [List.mem_singleton] at hx2
      subst hx2
      exact Nat.lt_irrefl _ (h1 _ hx)
    · intro c hc
      rcases List.mem_append.1 hc with hc | hc
      · exact Nat.lt_succ_of_lt (h3 c hc)
      · rw [List.mem_singleton] at hc
        subst hc
        exact Nat.lt_succ_self _
    · intro q hq
      exact Nat.lt_succ_of_lt (h4 q hq)
    · intro e he c hc
      exact Nat.lt_succ_of_lt (h5 e he c hc)
    · refine nodup_snoc_right h6 ?_ ?_
      · intro hm
        rcases List.mem_append.1 hm with hm | hm
        · obtain ⟨e, he, hc⟩ := mem_initTargets hm
          exact Nat.lt_irrefl _ (h5 e he _ hc)
        · obtain ⟨q, hq, hq2⟩ := List.mem_map.1 hm
          have hlt := h4 q hq
          exact Nat.lt_irrefl _ (hq2 ▸ hlt)
      · intro hm
        exact Nat.lt_irrefl _ (h3 _ hm)
    · intro c hc E1 x E2 hsplit hx e he m hm
      rcases List.mem_append.1 hc with hc | hc
      · exact h10 c hc E1 x E2 hsplit hx e he m hm
      · rw [List.mem_singleton] at hc
        subst hc
        exact absurd hx (hfresh E1 x E2 hsplit)
  | findRead d h0 =>
    simp only [act] at hs
    split at hs
    · rename_i hg
      simp only [Option.some.injEq] at hs
      subst hs
      have hc := hg.1
      refine ⟨h1, h2, ?_, ?_, h5, ?_, h9, h10⟩
      · intro c hd
        exact h3 c (List.mem_filter.1 hd).1
      · intro q hq
        rcases List.mem_append.1 hq with hq | hq
        · exact h4 q hq
        · rw [List.mem_singleton] at hq
          subst hq
          exact h3 d hc
      · have hni : d ∉ s.findIssued.filter (fun x => x != d) := by
          intro hm
          have := (List.mem_filter.1 hm).2
          simp at this
        have := nodup_move_gen h6 hc (List.filter_sublist _) hni
        simpa [List.append_assoc] using this
    · simp at hs
  | findFail d =>
    simp only [act] at hs
    split at hs
    · rename_i hg
      simp only [Option.some.injEq] at hs
      subst hs
      have hIT : (initTargets s.emitted).Nodup :=
        (List.nodup_append.1 (List.nodup_append.1 h6).1).1
      refine ⟨?_, List.nodup_nil, ?_, ?_, h5, ?_, h9, ?_⟩
      · intro c hc
        simp [crash] at hc
      · intro c hc
        simp [crash] at hc
      · intro q hq
        simp [crash] at hq
      · simpa [crash] using hIT
      · intro c hc
        simp [crash] at hc
    · simp at hs
  | initEmit d =>
    simp only [act] at hs
    split at hs
    · rename_i c2 h0 hl
      simp only [Option.some.injEq] at hs
      subst hs
      obtain ⟨hmem, hc2⟩ := lookupFind_some hl
      simp only at hc2
      subst hc2
      refine ⟨h1, h2, h3, ?_, ?_, ?_, ?_, ?_⟩
      · intro q hq
        exact h4 q (List.mem_filter.1 hq).1
      · intro e he c hd
        rcases List.mem_append.1 he with he | he
        · exact h5 e he c hd
        · rw [List.mem_singleton] at he
          subst he
          simp only [List.mem_singleton] at hd
          subst hd
          exact h4 _ hmem
      · rw [initTargets_snoc_init]
        have hID := (List.nodup_append.1 h6).1
        have hcD : c2 ∈ s.findDone.map (fun q => q.1) := List.mem_map.2 ⟨_, hmem, rfl⟩
        have hsubl : List.Sublist ((s.findDone.filter (fun q => q.1 != c2)).map (fun q => q.1))
            (s.findDone.map (fun q => q.1)) := (List.filter_sublist _).map _
        have hni : c2 ∉ (s.findDone.filter (fun q => q.1 != c2)).map (fun q => q.1) := by
          intro hm
          obtain ⟨q, hq, hq2⟩ := List.mem_map.1 hm
          have := (List.mem_filter.1 hq).2
          simp [hq2] at this
        have hX := nodup_move_gen hID hcD hsubl hni
        refine nodup_append_of_subset h6 hX ?_
        intro x hx
        rcases List.mem_append.1 hx with hx | hx
        · rcases List.mem_append.1 hx with hx | hx
          · exact List.mem_append_left _ hx
          · rw [List.mem_singleton] at hx
            subst hx
            exact List.mem_append_right _ hcD
        · exact List.mem_append_right _ (hsubl.subset hx)
      · intro e he h2 hev
        rcases List.mem_append.1 he with he | he
        · exact h9 e he h2 hev
        · rw [List.mem_singleton] at he
          subst he
          exact ⟨c2, rfl⟩
      · refine stillOpen_snoc h10 ?_
        intro m hm
        simp at hm
    · simp at hs
  | receive d msg oid =>
    simp only [act] at hs
    split at hs
    · rename_i hg
      split at hs
      · rename_i m0 hm0
        simp only [Option.some.injEq] at hs
        subst hs
        exact ⟨h1, h2, h3, h4, h5, h6, h9, h10⟩
      · simp only [Option.some.injEq] at hs
        subst hs
        have hIT : (initTargets s.emitted).Nodup :=
          (List.nodup_append.1 (List.nodup_append.1 h6).1).1
        refine ⟨?_, List.nodup_nil, ?_, ?_, h5, ?_, h9, ?_⟩
        · intro c hc
          simp [crash] at hc
        · intro c hc
          simp [crash] at hc
        · intro q hq
          simp [crash] at hq
        · simpa [crash] using hIT
        · intro c hc
          simp [crash] at hc
    · simp at hs
  | saveCommit j =>
    simp only [act] at hs
    split at hs
    · rename_i c0 m0 hl
      simp only [Option.some.injEq] at hs
      subst hs
      exact ⟨h1, h2, h3, h4, h5, h6, h9, h10⟩
    · simp at hs
  | saveFail j =>
    simp only [act] at hs
    split at hs
    · rename_i p0 hl
      simp only [Option.some.injEq] at hs
      subst hs
      have hIT : (initTargets s.emitted).Nodup :=
        (List.nodup_append.1 (List.nodup_append.1 h6).1).1
      refine ⟨?_, List.nodup_nil, ?_, ?_, h5, ?_, h9, ?_⟩
      · intro c hc
        simp [crash] at hc
      · intro c hc
        simp [crash] at hc
      · intro q hq
        simp [crash] at hq
      · simpa [crash] using hIT
      · intro c hc
        simp [crash] at hc
    · simp at hs
  | resume j =>
    simp only [act] at hs
    split at hs
    · rename_i c0 m0 hl
      simp only [Option.some.injEq] at hs
      subst hs
      refine ⟨h1, h2, h3, h4, ?_, ?_, ?_, ?_⟩
      · intro e he c hd
        rcases List.mem_append.1 he with he | he
        · exact h5 e he c hd
        · rw [List.mem_singleton] at he
          subst he
          exact h1 c hd
      · rw [initTargets_snoc_message]
        exact h6
      · intro e he h hev
        rcases List.mem_append.1 he with he | he
        · exact h9 e he h hev
        · rw [List.mem_singleton] at he
          subst he
          simp at hev
      · refine stillOpen_snoc h10 ?_
        intro m _ c hd
        exact hd
    · simp at hs
  | disconnect d =>
    simp only [act] at hs
    split at hs
    · rename_i hg
      simp only [Option.some.injEq] at hs
      subst hs
      refine ⟨?_, h2.filter _, h3, h4, h5, h6, h9, ?_⟩
      · intro c hd
        exact h1 c (List.mem_filter.1 hd).1
      · intro c hd
        exact h10 c (List.mem_filter.1 hd).1
    · simp at hs

theorem sockInv_step {s t : State} {a : Action} (hi : SockInv s) (hs : step s a = some t) :
    SockInv t :=
  sockInv_act hi (step_act hs)

theorem sockInv_run {s t : State} {acts : List Action} (hi : SockInv s)
    (hr : run s acts = some t) : SockInv t := by
  induction acts generalizing s with
  | nil =>
    simp only [run, Option.some.injEq] at hr
    subst hr
    exact hi
  | cons a acts ih =>
    simp only [run] at hr
    cases hs : step s a with
    | none => simp [hs] at hr
    | some u =>
      simp only [hs] at hr
      exact ih (sockInv_step hi hs) hr

theorem sockInv_reachable {stored : List Message} {acts : List Action} {s : State}
    (hr : run (boot stored) acts = some s) : SockInv s :=
  sockInv_run (sockInv_boot stored) hr

/-! ## What a step changes -/

theorem exited_act {s t : State} {a : Action} (hs : act s a = some t)
    (hx : s.exited = true) : t.exited = true := by
  cases a with
  | tick =>
    simp only [act, Option.some.injEq] at hs
    subst hs
    exact hx
  | connect =>
    simp only [act, Option.some.injEq] at hs
    subst hs
    exact hx
  | findRead d h0 =>
    simp only [act] at hs
    split at hs
    · rename_i hg
      simp only [Option.some.injEq] at hs
      subst hs
      exact hx
    · simp at hs
  | findFail d =>
    simp only [act] at hs
    split at hs
    · rename_i hg
      simp only [Option.some.injEq] at hs
      subst hs
      rfl
    · simp at hs
  | initEmit d =>
    simp only [act] at hs
    split at hs
    · rename_i c2 h0 hl
      simp only [Option.some.injEq] at hs
      subst hs
      exact hx
    · simp at hs
  | receive d msg oid =>
    simp only [act] at hs
    split at hs
    · rename_i hg
      split at hs
      · rename_i m0 hm0
        simp only [Option.some.injEq] at hs
        subst hs
        exact hx
      · simp only [Option.some.injEq] at hs
        subst hs
        rfl
    · simp at hs
  | saveCommit j =>
    simp only [act] at hs
    split at hs
    · rename_i c0 m0 hl
      simp only [Option.some.injEq] at hs
      subst hs
      exact hx
    · simp at hs
  | saveFail j =>
    simp only [act] at hs
    split at hs
    · rename_i p0 hl
      simp only [Option.some.injEq] at hs
      subst hs
      rfl
    · simp at hs
  | resume j =>
    simp only [act] at hs
    split at hs
    · rename_i c0 m0 hl
      simp only [Option.some.injEq] at hs
      subst hs
      exact hx
    · simp at hs
  | disconnect d =>
    simp only [act] at hs
    split at hs
    · rename_i hg
      simp only [Option.some.injEq] at hs
      subst hs
      exact hx
    · simp at hs

theorem exited_step {s t : State} {a : Action} (hs : step s a = some t)
    (hx : s.exited = true) : t.exited = true :=
  exited_act (step_act hs) hx

/-- A state that has not exited comes from one that has not. -/
theorem running_before {s t : State} {a : Action} (hs : step s a = some t)
    (hx : t.exited = false) : s.exited = false := by
  cases h : s.exited with
  | false => rfl
  | true =>
    have := exited_step hs h
    rw [hx] at this
    exact absurd this (by simp)

/-- What a step does to the inserted documents, the collection and the emissions: a
step other than an insert and a broadcast leaves the first two alone and emits at most an
`'init'`. -/
theorem act_shape {s t : State} {a : Action} (hs : act s a = some t) :
    (t.saved = s.saved ∧ t.store = s.store ∧ ∃ E, t.emitted = s.emitted ++ E ∧
      broadcasts E = [] ∧ (∀ e ∈ E, ∃ c h, e = ⟨[c], .init h⟩) ∧
      (∀ i, a ≠ .saveCommit i) ∧ ∀ i, a ≠ .resume i) ∨
    (∃ c m, a = .saveCommit m.id ∧ lookupDoc m.id s.saving = some (c, m) ∧
      t = { s with
        store := s.store ++ [m]
        saving := dropDoc m.id s.saving
        saved := s.saved ++ [(c, m)] }) ∨
    (∃ c m, a = .resume m.id ∧ lookupDoc m.id s.saved = some (c, m) ∧
      t = { s with
        saved := dropDoc m.id s.saved
        emitted := s.emitted ++ [⟨s.openSockets, .message m⟩] }) := by
  cases a with
  | tick =>
    simp only [act, Option.some.injEq] at hs
    subst hs
    exact Or.inl ⟨rfl, rfl, [], by simp, rfl, by simp, by simp, by simp⟩
  | connect =>
    simp only [act, Option.some.injEq] at hs
    subst hs
    exact Or.inl ⟨rfl, rfl, [], by simp, rfl, by simp, by simp, by simp⟩
  | findRead d h0 =>
    simp only [act] at hs
    split at hs
    · rename_i hg
      simp only [Option.some.injEq] at hs
      subst hs
      exact Or.inl ⟨rfl, rfl, [], by simp, rfl, by simp, by simp, by simp⟩
    · simp at hs
  | findFail d =>
    simp only [act] at hs
    split at hs
    · rename_i hg
      simp only [Option.some.injEq] at hs
      subst hs
      exact Or.inl ⟨rfl, rfl, [], by simp [crash], rfl, by simp, by simp, by simp⟩
    · simp at hs
  | initEmit d =>
    simp only [act] at hs
    split at hs
    · rename_i c2 h0 hl
      simp only [Option.some.injEq] at hs
      subst hs
      refine Or.inl ⟨rfl, rfl, [⟨[d], .init h0⟩], rfl, ?_, ?_, by simp, by simp⟩
      · simp [broadcasts, messagesOf]
      · intro e he
        rw [List.mem_singleton] at he
        exact ⟨d, h0, he⟩
    · simp at hs
  | receive d msg oid =>
    simp only [act] at hs
    split at hs
    · rename_i hg
      split at hs
      · rename_i m0 hm0
        simp only [Option.some.injEq] at hs
        subst hs
        exact Or.inl ⟨rfl, rfl, [], by simp, rfl, by simp, by simp, by simp⟩
      · simp only [Option.some.injEq] at hs
        subst hs
        exact Or.inl ⟨rfl, rfl, [], by simp [crash], rfl, by simp, by simp, by simp⟩
    · simp at hs
  | saveCommit j =>
    simp only [act] at hs
    split at hs
    · rename_i c0 m0 hl
      simp only [Option.some.injEq] at hs
      subst hs
      have hid : m0.id = j := (lookupDoc_some hl).2
      subst hid
      exact Or.inr (Or.inl ⟨c0, m0, rfl, hl, rfl⟩)
    · simp at hs
  | saveFail j =>
    simp only [act] at hs
    split at hs
    · rename_i p0 hl
      simp only [Option.some.injEq] at hs
      subst hs
      exact Or.inl ⟨rfl, rfl, [], by simp [crash], rfl, by simp, by simp, by simp⟩
    · simp at hs
  | resume j =>
    simp only [act] at hs
    split at hs
    · rename_i c0 m0 hl
      simp only [Option.some.injEq] at hs
      subst hs
      have hid : m0.id = j := (lookupDoc_some hl).2
      subst hid
      exact Or.inr (Or.inr ⟨c0, m0, rfl, hl, rfl⟩)
    · simp at hs
  | disconnect d =>
    simp only [act] at hs
    split at hs
    · rename_i hg
      simp only [Option.some.injEq] at hs
      subst hs
      exact Or.inl ⟨rfl, rfl, [], by simp, rfl, by simp, by simp, by simp⟩
    · simp at hs

/-! ## After the process has exited -/

theorem after_refl {s : State} (hx : s.exited = true) : After s s :=
  ⟨hx, rfl, rfl, fun _ hp => hp, fun _ hx => Or.inl hx⟩

theorem after_step {s u t : State} {a : Action} (h : After s u) (hs : step u a = some t) :
    After s t := by
  obtain ⟨h1, h2, h3, h4, h5⟩ := h
  have hsv := step_exited h1 hs
  have hs := step_act hs
  cases a with
  | tick =>
    simp only [act, Option.some.injEq] at hs
    subst hs
    exact ⟨h1, h2, h3, h4, h5⟩
  | saveCommit j =>
    simp only [act] at hs
    split at hs
    · rename_i c0 m0 hl
      simp only [Option.some.injEq] at hs
      subst hs
      have hmem := (lookupDoc_some hl).1
      refine ⟨h1, h2, h3, ?_, ?_⟩
      · intro p hp
        exact h4 p (mem_dropDoc.1 hp).1
      · intro x hx
        rcases List.mem_append.1 hx with hx | hx
        · exact h5 x hx
        · rw [List.mem_singleton] at hx
          subst hx
          exact Or.inr ⟨(c0, x), h4 _ hmem, rfl⟩
    · simp at hs
  | connect => simp [survives] at hsv
  | findRead d h0 => simp [survives] at hsv
  | findFail d => simp [survives] at hsv
  | initEmit d => simp [survives] at hsv
  | receive d msg oid => simp [survives] at hsv
  | saveFail j => simp [survives] at hsv
  | resume j => simp [survives] at hsv
  | disconnect d => simp [survives] at hsv

theorem after_run {s u : State} {acts : List Action} (hx : s.exited = true)
    (hr : run s acts = some u) : After s u := by
  have key : ∀ (acts : List Action) (v : State), After s v → run v acts = some u →
      After s u := by
    intro acts
    induction acts with
    | nil =>
      intro v hv hr
      simp only [run, Option.some.injEq] at hr
      subst hr
      exact hv
    | cons a acts ih =>
      intro v hv hr
      simp only [run] at hr
      cases hs : step v a with
      | none => simp [hs] at hr
      | some w =>
        simp only [hs] at hr
        exact ih w (after_step hv hs) hr
  exact key acts s (after_refl hx) hr

/-- The database can insert every document that is being saved. -/
theorem saveCommit_spec {s : State} {p : SocketId × Message} (hi : DocInv s)
    (hp : p ∈ s.saving) :
    step s (.saveCommit p.2.id) = some { s with
      store := s.store ++ [p.2]
      saving := dropDoc p.2.id s.saving
      saved := s.saved ++ [p] } := by
  have hl := lookupDoc_of_mem hp hi.savingNodup
  rw [step_survives (.saveCommit p.2.id) rfl]
  simp [act, hl]

/-- While the process runs, the handler of every inserted document can resume, and then
broadcasts it. -/
theorem resume_spec {s : State} {p : SocketId × Message} (hi : DocInv s)
    (hx : s.exited = false) (hp : p ∈ s.saved) :
    step s (.resume p.2.id) = some { s with
      saved := dropDoc p.2.id s.saved
      emitted := s.emitted ++ [⟨s.openSockets, .message p.2⟩] } := by
  have hl := lookupDoc_of_mem hp (List.nodup_append.1 hi.castNodup).2.1
  rw [step_running _ hx]
  simp [act, hl]

/-- While the process runs, the callback of a pending query result can run, and emits
that result to its socket. -/
theorem initEmit_spec {s : State} {c : SocketId} {h : List Message} (hi : SockInv s)
    (hx : s.exited = false) (hp : (c, h) ∈ s.findDone) :
    step s (.initEmit c) = some { s with
      findDone := s.findDone.filter (fun p => p.1 != c)
      emitted := s.emitted ++ [⟨[c], .init h⟩] } := by
  have hn : (s.findDone.map (fun q => q.1)).Nodup :=
    (List.nodup_append.1 (List.nodup_append.1 hi.initOnce).1).2.1
  have hl := lookupFind_of_mem hp hn
  simp only at hl
  rw [step_running _ hx]
  simp [act, hl]

/-- A rejected save makes the process exit. -/
theorem saveFail_spec {s : State} {i : Nat} {p : SocketId × Message}
    (hx : s.exited = false) (hl : lookupDoc i s.saving = some p) :
    step s (.saveFail i) = some (crash { s with saving := dropDoc i s.saving }) := by
  rw [step_running _ hx]
  simp [act, hl]

/-- After its save has been rejected a document is never inserted and never broadcast,
and nothing at all is emitted any more. -/
theorem failed_never {s u : State} {more : List Action} {c : SocketId} {m : Message}
    (hi : DocInv s) (hl : lookupDoc m.id s.saving = some (c, m))
    (hr : run (crash { s with saving := dropDoc m.id s.saving }) more = some u) :
    u.exited = true ∧ u.openSockets = [] ∧ u.emitted = s.emitted ∧ m ∉ u.store ∧
      ∀ e ∈ u.emitted, e.event ≠ .message m := by
  obtain ⟨h1, h2, h3, _, h5⟩ := after_run rfl hr
  have hmem := (lookupDoc_some hl).1
  have hns : m ∉ s.store := fun hm =>
    hi.savingFresh _ hmem (List.mem_map.2 ⟨m, hm, rfl⟩)
  have hnu : m ∉ u.store := by
    intro hm
    rcases h5 m hm with h | ⟨p, hp, hpm⟩
    · exact hns h
    · have hp2 : p ∈ dropDoc m.id s.saving := hp
      exact (mem_dropDoc.1 hp2).2 (hpm ▸ rfl)
  refine ⟨h1, h3, h2, hnu, ?_⟩
  intro e he hev
  rw [h2] at he
  exact hns (hi.castStored m (mem_broadcasts.2 ⟨e, he, hev⟩))

/-- Every document that has been inserted in the run or broadcast was inserted by a step of
the run. -/
theorem committed_in_run (stored : List Message) (acts : List Action) (s : State)
    (hr : run (boot stored) acts = some s) :
    (∀ p ∈ s.saved, .saveCommit p.2.id ∈ acts) ∧
      ∀ m ∈ broadcasts s.emitted, .saveCommit m.id ∈ acts := by
  refine run_induction stored
    (fun acts s => (∀ p ∈ s.saved, .saveCommit p.2.id ∈ acts) ∧
      ∀ m ∈ broadcasts s.emitted, .saveCommit m.id ∈ acts) ?_ ?_ acts s hr
  · simp [boot, broadcasts, messagesOf]
  · intro acts s a t _ ih hs
    obtain ⟨ih1, ih2⟩ := ih
    rcases act_shape (step_act hs) with ⟨h1, _, E, h3, h4, _, _, _⟩ | ⟨c, m, ha, hl, ht⟩ |
      ⟨c, m, ha, hl, ht⟩
    · refine ⟨?_, ?_⟩
      · intro p hp
        rw [h1] at hp
        exact List.mem_append_left _ (ih1 p hp)
      · intro m hm
        rw [h3, broadcasts_append, h4, List.append_nil] at hm
        exact List.mem_append_left _ (ih2 m hm)
    · subst ht
      subst ha
      refine ⟨?_, ?_⟩
      · intro p hp
        rcases List.mem_append.1 hp with hp | hp
        · exact List.mem_append_left _ (ih1 p hp)
        · rw [List.mem_singleton] at hp
          subst hp
          exact List.mem_append_right _ (List.mem_singleton.2 rfl)
      · intro x hx
        exact List.mem_append_left _ (ih2 x hx)
    · subst ht
      subst ha
      have hmem := (lookupDoc_some hl).1
      refine ⟨?_, ?_⟩
      · intro p hp
        exact List.mem_append_left _ (ih1 p (mem_dropDoc.1 hp).1)
      · intro x hx
        rw [broadcasts_snoc_message] at hx
        rcases List.mem_append.1 hx with hx | hx
        · exact List.mem_append_left _ (ih2 x hx)
        · rw [List.mem_singleton] at hx
          subst hx
          exact List.mem_append_left _ (ih1 _ hmem)

/-! ## The claims -/

/-- C1 (no broadcast before persist).  In every run of the relay, over whatever collection
it starts, every `'message'` event that has been emitted carries a document of the store,
which the database inserted in a step of the run; a step emits a `'message'` event only
for a document that was in the store, its save completed, before the step; and when the
save of a document fails, that document is in the store and in a `'message'` event of no
later state. -/
theorem no_broadcast_before_persist (stored : List Message) (acts : List Action) (s : State)
    (hr : run (boot stored) acts = some s) :
    (∀ e ∈ s.emitted, ∀ m, e.event = .message m → m ∈ s.store ∧ .saveCommit m.id ∈ acts) ∧
    (∀ a t, step s a = some t → ∃ new, t.emitted = s.emitted ++ new ∧
      ∀ e ∈ new, ∀ m, e.event = .message m → m ∈ s.store ∧ ∃ c, (c, m) ∈ s.saved) ∧
    (∀ i c m t more u, lookupDoc i s.saving = some (c, m) →
      step s (.saveFail i) = some t → run t more = some u →
      m ∉ u.store ∧ ∀ e ∈ u.emitted, e.event ≠ .message m) := by
  have hi := docInv_reachable hr
  refine ⟨?_, ?_, ?_⟩
  · intro e he m hev
    have hb : m ∈ broadcasts s.emitted := mem_broadcasts.2 ⟨e, he, hev⟩
    exact ⟨hi.castStored m hb, (committed_in_run stored acts s hr).2 m hb⟩
  · intro a t hs
    rcases act_shape (step_act hs) with ⟨_, _, E, h3, _, h5, _, _⟩ | ⟨c, m, _, _, ht⟩ |
      ⟨c, m, _, hl, ht⟩
    · refine ⟨E, h3, ?_⟩
      intro e he m hev
      obtain ⟨c, h, rfl⟩ := h5 e he
      simp at hev
    · subst ht
      exact ⟨[], by simp, by simp⟩
    · subst ht
      refine ⟨_, rfl, ?_⟩
      intro e he m2 hev
      rw [List.mem_singleton] at he
      subst he
      simp only [Event.message.injEq] at hev
      subst hev
      have hmem := (lookupDoc_some hl).1
      exact ⟨hi.savedStored _ hmem, c, hmem⟩
  · intro i c m t more u hl hs hu
    have hid : m.id = i := (lookupDoc_some hl).2
    subst hid
    have hs2 := step_act hs
    simp only [act, hl, Option.some.injEq] at hs2
    subst hs2
    have := failed_never hi hl hu
    exact ⟨this.2.2.2.1, this.2.2.2.2⟩

/-- A run with a broadcast made and a save in flight, for `no_broadcast_before_persist`. -/
theorem no_broadcast_before_persist_witness :
    run (boot []) overtakeRun = some overtakeState ∧
    ((∀ e ∈ overtakeState.emitted, ∀ m, e.event = .message m →
      m ∈ overtakeState.store ∧ .saveCommit m.id ∈ overtakeRun) ∧
    (∀ a t, step overtakeState a = some t → ∃ new, t.emitted = overtakeState.emitted ++ new ∧
      ∀ e ∈ new, ∀ m, e.event = .message m →
        m ∈ overtakeState.store ∧ ∃ c, (c, m) ∈ overtakeState.saved) ∧
    (∀ i c m t more u, lookupDoc i overtakeState.saving = some (c, m) →
      step overtakeState (.saveFail i) = some t → run t more = some u →
      m ∉ u.store ∧ ∀ e ∈ u.emitted, e.event ≠ .message m)) :=
  ⟨rfl, no_broadcast_before_persist [] overtakeRun overtakeState rfl⟩

/-! ### Order -/

theorem closedSockets_append (xs ys : List Action) :
    closedSockets (xs ++ ys) = closedSockets xs ++ closedSockets ys := by
  induction xs with
  | nil => simp [closedSockets]
  | cons a xs ih => cases a <;> simp [closedSockets, ih]

theorem committedIds_append (xs ys : List Action) :
    committedIds (xs ++ ys) = committedIds xs ++ committedIds ys := by
  induction xs with
  | nil => simp [committedIds]
  | cons a xs ih => cases a <;> simp [committedIds, ih]

theorem resumedIds_append (xs ys : List Action) :
    resumedIds (xs ++ ys) = resumedIds xs ++ resumedIds ys := by
  induction xs with
  | nil => simp [resumedIds]
  | cons a xs ih => cases a <;> simp [resumedIds, ih]

theorem messagesOf_outbox_sublist (c : SocketId) (es : List Emission) :
    List.Sublist (messagesOf (outbox c es)) (broadcasts es) := by
  induction es with
  | nil => simp [outbox, broadcasts, messagesOf]
  | cons e es ih =>
    have h1 : outbox c (e :: es) = outbox c [e] ++ outbox c es := outbox_append c [e] es
    have h2 : broadcasts (e :: es) = broadcasts [e] ++ broadcasts es :=
      broadcasts_append [e] es
    rw [h1, h2, messagesOf_append]
    refine List.Sublist.append ?_ ih
    rcases e with ⟨t, ev⟩
    by_cases hc : c ∈ t
    · simp [outbox, broadcasts, hc]
    · simp [outbox, broadcasts, hc, messagesOf]

theorem nodup_no_swap {α : Type} {g : List α} {a b : α} (hg : g.Nodup)
    (h1 : List.Sublist [a, b] g) (h2 : List.Sublist [b, a] g) : False := by
  induction g with
  | nil => simp at h1
  | cons x g ih =>
    have hx : x ∉ g := (List.nodup_cons.1 hg).1
    have hg2 : g.Nodup := (List.nodup_cons.1 hg).2
    rcases List.sublist_cons_iff.1 h1 with k1 | ⟨r, hr, k1⟩
    · rcases List.sublist_cons_iff.1 h2 with k2 | ⟨r2, hr2, k2⟩
      · exact ih hg2 k1 k2
      · simp only [List.cons.injEq] at hr2
        have hbx : b = x := hr2.1
        exact hx (hbx ▸ k1.subset (show b ∈ [a, b] by simp))
    · simp only [List.cons.injEq] at hr
      have hax : a = x := hr.1
      rcases List.sublist_cons_iff.1 h2 with k2 | ⟨r2, hr2, k2⟩
      · exact hx (hax ▸ k2.subset (show a ∈ [b, a] by simp))
      · simp only [List.cons.injEq] at hr2
        have hr3 : [a] = r2 := hr2.2
        exact hx (hax ▸ k2.subset (hr3 ▸ (show a ∈ [a] by simp)))

theorem two_mem_sublist {α : Type} {l : List α} {a b : α} (ha : a ∈ l) (hb : b ∈ l)
    (hab : a ≠ b) : List.Sublist [a, b] l ∨ List.Sublist [b, a] l := by
  induction l with
  | nil => simp at ha
  | cons x l ih =>
    rcases List.mem_cons.1 ha with rfl | ha2
    · rcases List.mem_cons.1 hb with hb2 | hb2
      · exact absurd hb2.symm hab
      · exact Or.inl (List.cons_sublist_cons.2 (List.singleton_sublist.2 hb2))
    · rcases List.mem_cons.1 hb with rfl | hb2
      · exact Or.inr (List.cons_sublist_cons.2 (List.singleton_sublist.2 ha2))
      · rcases ih ha2 hb2 with h | h
        · exact Or.inl (h.cons x)
        · exact Or.inr (h.cons x)

/-- Two sublists of a list without repetition hold two common elements in the same
order. -/
theorem pair_order {α : Type} {l1 l2 g : List α} {a b : α} (h1 : List.Sublist l1 g)
    (h2 : List.Sublist l2 g) (hg : g.Nodup) (hab : List.Sublist [a, b] l1) (ha : a ∈ l2)
    (hb : b ∈ l2) : List.Sublist [a, b] l2 := by
  have hne : a ≠ b := by
    have := hg.sublist (hab.trans h1)
    simp only [List.nodup_cons, List.mem_singleton] at this
    exact this.1
  rcases two_mem_sublist ha hb hne with h | h
  · exact h
  · exact absurd (h.trans h2) (fun h3 => nodup_no_swap hg (hab.trans h1) h3)

theorem committedIds_single {a : Action} (h : ∀ i, a ≠ .saveCommit i) :
    committedIds [a] = [] := by
  cases a <;> simp [committedIds] at h ⊢

theorem resumedIds_single {a : Action} (h : ∀ i, a ≠ .resume i) : resumedIds [a] = [] := by
  cases a <;> simp [resumedIds] at h ⊢

/-- The broadcasts follow the resume steps and the store follows the insertions. -/
theorem order_eq (stored : List Message) (acts : List Action) (s : State)
    (hr : run (boot stored) acts = some s) :
    (broadcasts s.emitted).map (fun m => m.id) = resumedIds acts ∧
      s.store.map (fun m => m.id) = stored.map (fun m => m.id) ++ committedIds acts := by
  refine run_induction stored
    (fun acts s => (broadcasts s.emitted).map (fun m => m.id) = resumedIds acts ∧
      s.store.map (fun m => m.id) = stored.map (fun m => m.id) ++ committedIds acts)
    ?_ ?_ acts s hr
  · simp [boot, broadcasts, messagesOf, resumedIds, committedIds]
  · intro acts s a t _ ih hs
    obtain ⟨ih1, ih2⟩ := ih
    rw [resumedIds_append, committedIds_append]
    rcases act_shape (step_act hs) with ⟨_, h2, E, h3, h4, _, h6, h7⟩ | ⟨c, m, ha, _, ht⟩ |
      ⟨c, m, ha, _, ht⟩
    · rw [committedIds_single h6, resumedIds_single h7, h2, h3, broadcasts_append, h4]
      simpa using ⟨ih1, ih2⟩
    · subst ht
      subst ha
      simp [resumedIds, committedIds, ih1, ih2]
    · subst ht
      subst ha
      rw [broadcasts_snoc_message]
      simp [resumedIds, committedIds, ih1, ih2]

/-- C5, as stated, fails: two messages are inserted in the order of their arrival, the one
with `_id` 0 and then the one with `_id` 1, and broadcast, to two sockets connected
throughout, in the opposite order. -/
theorem total_order_counterexample :
    run (boot []) swapRun = some swapState ∧
    swapState.store.map (fun m => m.id) = [0, 1] ∧
    (broadcasts swapState.emitted).map (fun m => m.id) = [1, 0] ∧
    (messagesOf (outbox 0 swapState.emitted)).map (fun m => m.id) = [1, 0] ∧
    (messagesOf (outbox 1 swapState.emitted)).map (fun m => m.id) = [1, 0] :=
  ⟨rfl, rfl, rfl, rfl, rfl⟩

/-- C5, amended.  In every run, over whatever collection it starts, the `'message'` events
sent to a socket are a subsequence of the broadcasts, and no document is broadcast twice;
hence two sockets that are both sent two given messages are sent them in the same relative
order.  The broadcasts are in the order in which the handlers resumed after their saves,
and the store is the collection the run started with followed by the documents in the
order in which the database inserted them. -/
theorem broadcast_order (stored : List Message) (acts : List Action) (s : State)
    (hr : run (boot stored) acts = some s) :
    (∀ c, List.Sublist (messagesOf (outbox c s.emitted)) (broadcasts s.emitted)) ∧
    (broadcasts s.emitted).Nodup ∧
    (∀ c1 c2 m1 m2, List.Sublist [m1, m2] (messagesOf (outbox c1 s.emitted)) →
      m1 ∈ messagesOf (outbox c2 s.emitted) → m2 ∈ messagesOf (outbox c2 s.emitted) →
      List.Sublist [m1, m2] (messagesOf (outbox c2 s.emitted))) ∧
    (broadcasts s.emitted).map (fun m => m.id) = resumedIds acts ∧
    s.store.map (fun m => m.id) = stored.map (fun m => m.id) ++ committedIds acts := by
  have hi := docInv_reachable hr
  have hn : (broadcasts s.emitted).Nodup :=
    List.Nodup.of_map _ (List.nodup_append.1 hi.castNodup).1
  refine ⟨fun c => messagesOf_outbox_sublist c s.emitted, hn, ?_, order_eq stored acts s hr⟩
  intro c1 c2 m1 m2 h12 h1 h2
  exact pair_order (messagesOf_outbox_sublist c1 s.emitted)
    (messagesOf_outbox_sublist c2 s.emitted) hn h12 h1 h2

/-- The run with the swapped broadcasts, for `broadcast_order`. -/
theorem broadcast_order_witness :
    run (boot []) swapRun = some swapState ∧
    (∀ c, List.Sublist (messagesOf (outbox c swapState.emitted))
      (broadcasts swapState.emitted)) ∧
    (broadcasts swapState.emitted).Nodup ∧
    (∀ c1 c2 m1 m2, List.Sublist [m1, m2] (messagesOf (outbox c1 swapState.emitted)) →
      m1 ∈ messagesOf (outbox c2 swapState.emitted) →
      m2 ∈ messagesOf (outbox c2 swapState.emitted) →
      List.Sublist [m1, m2] (messagesOf (outbox c2 swapState.emitted))) ∧
    (broadcasts swapState.emitted).map (fun m => m.id) = resumedIds swapRun ∧
    swapState.store.map (fun m => m.id) =
      ([] : List Message).map (fun m => m.id) ++ committedIds swapRun :=
  ⟨rfl, broadcast_order [] swapRun swapState rfl⟩

/-! ### The client -/

theorem clientRun_snoc (evs : List Event) (e : Event) :
    clientRun (evs ++ [e]) = clientStep (clientRun evs) e := by
  simp [clientRun, List.foldl_append]

theorem foldl_clientStep_messages (l ms : List Message) :
    (ms.map Event.message).foldl clientStep l = l ++ ms := by
  induction ms generalizing l with
  | nil => simp
  | cons m ms ih =>
    simp only [List.map_cons, List.foldl_cons, clientStep, onMessage]
    rw [ih]
    simp

/-- C10 (the client's list is a fold over the received events).  The list starts empty;
an `'init'` event replaces it by the payload, whatever it held; a `'message'` event
appends its payload at the end.  Hence after any events `pre`, an `'init'` with payload
`h` and then `'message'` events with payloads `ms`, the list is `h ++ ms`, and a document
received in a `'message'` event before the `'init'` is in the list after the `'init'`
only if the payload `h` holds it. -/
theorem client_list_is_fold (pre : List Event) (h ms : List Message) :
    clientRun [] = [] ∧
    (∀ l, clientStep l (.init h) = h) ∧
    (∀ l m, clientStep l (.message m) = l ++ [m]) ∧
    (∀ evs e, clientRun (evs ++ [e]) = clientStep (clientRun evs) e) ∧
    clientRun (.init h :: ms.map Event.message) = h ++ ms ∧
    clientRun (pre ++ [.init h]) = h ∧
    clientRun (pre ++ .init h :: ms.map Event.message) = h ++ ms ∧
    (∀ m, Event.message m ∈ pre → m ∉ h → m ∉ clientRun (pre ++ [.init h])) := by
  have hinit : clientRun (pre ++ [.init h]) = h := by
    rw [clientRun_snoc]
    rfl
  refine ⟨rfl, fun _ => rfl, fun _ _ => rfl, clientRun_snoc, ?_, hinit, ?_, ?_⟩
  · simp only [clientRun, List.foldl_cons, clientStep, onInit]
    exact foldl_clientStep_messages h ms
  · have hsplit : pre ++ .init h :: ms.map Event.message
        = (pre ++ [.init h]) ++ ms.map Event.message := by simp
    rw [hsplit]
    unfold clientRun at hinit ⊢
    rw [List.foldl_append, hinit]
    exact foldl_clientStep_messages h ms
  · intro m _ hm
    rw [hinit]
    exact hm

/-- A message that arrives before the `'init'`, for `client_list_is_fold`. -/
theorem client_list_is_fold_witness :
    Event.message (textDoc 1 0 "alice" "yo") ∈ [Event.message (textDoc 1 0 "alice" "yo")] ∧
    textDoc 1 0 "alice" "yo" ∉ [textDoc 0 0 "alice" "hi"] ∧
    textDoc 1 0 "alice" "yo" ∉
      clientRun ([Event.message (textDoc 1 0 "alice" "yo")] ++
        [.init [textDoc 0 0 "alice" "hi"]]) :=
  ⟨by decide, by decide,
    (client_list_is_fold [Event.message (textDoc 1 0 "alice" "yo")]
      [textDoc 0 0 "alice" "hi"] []).2.2.2.2.2.2.2 (textDoc 1 0 "alice" "yo")
      (by decide) (by decide)⟩

/-! ### Inbound events -/

theorem castString_eq_none (v : Value) : castString v = none ↔ v = .arr ∨ v = .obj none := by
  cases v with
  | bool b => cases b <;> simp [castString]
  | obj o => cases o <;> simp [castString]
  | _ => simp [castString]

theorem newMessage_none_iff (oid now : Nat) (msg : Msg) :
    newMessage oid now msg = none ↔
      (msg.prop "user").bind castString = none ∨ (msg.prop "message").bind castString = none ∨
      (msg.prop "file").bind castString = none ∨
      (msg.prop "fileType").bind castString = none := by
  unfold newMessage
  cases msg.prop "user" <;> cases msg.prop "message" <;> cases msg.prop "file" <;>
    cases msg.prop "fileType" <;> simp
  rename_i u b f t
  cases castString u <;> cases castString b <;> cases castString f <;>
    cases castString t <;> simp

theorem prop_cast_none_iff (msg : Msg) (name : String) :
    (msg.prop name).bind castString = none ↔
      msg = .missing ∨ msg = .null ∨ msg.prop name = some .arr ∨
        msg.prop name = some (.obj none) := by
  cases msg with
  | missing => simp [Msg.prop]
  | null => simp [Msg.prop]
  | other => simp [Msg.prop, castString]
  | object fields => simp [Msg.prop, castString_eq_none]

/-- While the process runs, an inbound event from which a document can be built can be
taken through construction, insertion and broadcast. -/
theorem receive_chain {s : State} (hi : DocInv s) (hx : s.exited = false) (c : SocketId)
    (msg : Msg) (oid : Nat) (m : Message) (hc : c ∈ s.openSockets)
    (h1 : oid ∉ s.store.map (fun m => m.id)) (h2 : oid ∉ s.saving.map (fun p => p.2.id))
    (hm : newMessage oid s.now msg = some m) :
    ∃ t u v, step s (.receive c msg oid) = some t ∧ t.exited = false ∧
      t.saving = s.saving ++ [(c, m)] ∧ t.store = s.store ∧ t.emitted = s.emitted ∧
      step t (.saveCommit oid) = some u ∧
      u.store = s.store ++ [m] ∧ u.emitted = s.emitted ∧
      step u (.resume oid) = some v ∧ v.store = u.store ∧
      v.emitted = s.emitted ++ [⟨s.openSockets, .message m⟩] := by
  have hid : m.id = oid := (newMessage_some hm).1
  subst hid
  have k1 : step s (.receive c msg m.id) = some { s with saving := s.saving ++ [(c, m)] } := by
    rw [step_running _ hx]
    simp only [act]
    rw [if_pos ⟨hc, h1, h2⟩, hm]
  have hi1 := docInv_step hi k1
  have k2 := saveCommit_spec (p := (c, m)) hi1 (by simp)
  have hi2 := docInv_step hi1 k2
  have k3 := resume_spec (p := (c, m)) hi2 hx (by simp)
  exact ⟨_, _, _, k1, hx, rfl, rfl, rfl, k2, rfl, rfl, k3, rfl, rfl⟩

/-- While the process runs, an inbound event from which no document can be built makes it
exit; nothing of the event reaches the collection or a socket. -/
theorem receive_refused {s : State} (hx : s.exited = false) (c : SocketId)
    (msg : Msg) (oid : Nat) (hc : c ∈ s.openSockets)
    (h1 : oid ∉ s.store.map (fun m => m.id)) (h2 : oid ∉ s.saving.map (fun p => p.2.id))
    (hm : newMessage oid s.now msg = none) :
    ∃ t, step s (.receive c msg oid) = some t ∧ t.exited = true ∧ t.openSockets = [] ∧
      t.store = s.store ∧ t.saving = s.saving ∧ t.emitted = s.emitted ∧
      ∀ more u, run t more = some u →
        u.exited = true ∧ u.emitted = s.emitted ∧ ∀ x ∈ u.store, x.id ≠ oid := by
  have k1 : step s (.receive c msg oid) = some (crash s) := by
    rw [step_running _ hx]
    simp only [act]
    rw [if_pos ⟨hc, h1, h2⟩, hm]
  refine ⟨_, k1, rfl, rfl, rfl, rfl, rfl, ?_⟩
  intro more u hu
  obtain ⟨a1, a2, _, _, a5⟩ := after_run (s := crash s) rfl hu
  refine ⟨a1, a2, ?_⟩
  intro x hx2 hid
  rcases a5 x hx2 with h | ⟨p, hp, hpx⟩
  · exact h1 (List.mem_map.2 ⟨x, h, hid⟩)
  · exact h2 (List.mem_map.2 ⟨p, hp, by rw [hpx]; exact hid⟩)

/-- C2, as stated, fails: an inbound event whose payload has no author, no body and no
attachment is saved, and a `'message'` event carrying it is emitted to the connected
socket. -/
theorem validation_counterexample :
    blankMsg.prop "user" = some .undefined ∧ blankMsg.prop "message" = some .undefined ∧
    blankMsg.prop "file" = some .undefined ∧
    run (boot []) blankRun = some blankState ∧
    blankState.store = [blankDoc 0 0] ∧
    outbox 0 blankState.emitted = [.message (blankDoc 0 0)] :=
  ⟨rfl, rfl, rfl, rfl, rfl, rfl⟩

/-- C2, amended.  The relay does not check that an author, a body or an attachment is
present.  An inbound `'message'` event of a connected socket is refused exactly when
reading one of the four properties throws (the payload is missing or `null`) or mongoose
cannot cast one of them to a string (it is an array or a plain object): then no document
is saved, nothing is emitted then or later, and the process exits.  From every other
event, one without author, body or attachment included, a document is built and its save
started; the database can insert it, which appends it to the store, and the handler then
resumes and emits a `'message'` event carrying it to every connected socket. -/
theorem inbound_event_unchecked (stored : List Message) (acts : List Action) (s : State)
    (hr : run (boot stored) acts = some s) (hx : s.exited = false) (c : SocketId)
    (msg : Msg) (oid : Nat) (hc : c ∈ s.openSockets)
    (h1 : oid ∉ s.store.map (fun m => m.id)) (h2 : oid ∉ s.saving.map (fun p => p.2.id)) :
    (∀ m, newMessage oid s.now msg = some m →
      ∃ t u v, step s (.receive c msg oid) = some t ∧ t.exited = false ∧
        t.saving = s.saving ++ [(c, m)] ∧ t.store = s.store ∧ t.emitted = s.emitted ∧
        step t (.saveCommit oid) = some u ∧
        u.store = s.store ++ [m] ∧ u.emitted = s.emitted ∧
        step u (.resume oid) = some v ∧ v.store = u.store ∧
        v.emitted = s.emitted ++ [⟨s.openSockets, .message m⟩]) ∧
    (newMessage oid s.now msg = none →
      ∃ t, step s (.receive c msg oid) = some t ∧ t.exited = true ∧ t.openSockets = [] ∧
        t.store = s.store ∧ t.saving = s.saving ∧ t.emitted = s.emitted ∧
        ∀ more u, run t more = some u →
          u.exited = true ∧ u.emitted = s.emitted ∧ ∀ x ∈ u.store, x.id ≠ oid) ∧
    (newMessage oid s.now msg = none ↔
      (msg.prop "user").bind castString = none ∨ (msg.prop "message").bind castString = none ∨
      (msg.prop "file").bind castString = none ∨
      (msg.prop "fileType").bind castString = none) ∧
    (∀ name, (msg.prop name).bind castString = none ↔
      msg = .missing ∨ msg = .null ∨ msg.prop name = some .arr ∨
        msg.prop name = some (.obj none)) :=
  ⟨fun m hm => receive_chain (docInv_reachable hr) hx c msg oid m hc h1 h2 hm,
    fun hm => receive_refused hx c msg oid hc h1 h2 hm,
    newMessage_none_iff oid s.now msg, prop_cast_none_iff msg⟩

/-- The blank payload sent by the first of two connected sockets, for
`inbound_event_unchecked`. -/
theorem inbound_event_unchecked_witness :
    run (boot []) [.connect, .connect] = some twoSockets ∧ twoSockets.exited = false ∧
    0 ∈ twoSockets.openSockets ∧ 0 ∉ twoSockets.store.map (fun m => m.id) ∧
    0 ∉ twoSockets.saving.map (fun p => p.2.id) ∧
    newMessage 0 twoSockets.now blankMsg = some (blankDoc 0 0) ∧
    ∃ t u v, step twoSockets (.receive 0 blankMsg 0) = some t ∧ t.exited = false ∧
      t.saving = twoSockets.saving ++ [(0, blankDoc 0 0)] ∧ t.store = twoSockets.store ∧
      t.emitted = twoSockets.emitted ∧
      step t (.saveCommit 0) = some u ∧
      u.store = twoSockets.store ++ [blankDoc 0 0] ∧ u.emitted = twoSockets.emitted ∧
      step u (.resume 0) = some v ∧ v.store = u.store ∧
      v.emitted = twoSockets.emitted ++ [⟨twoSockets.openSockets, .message (blankDoc 0 0)⟩] :=
  ⟨rfl, rfl, by decide, by decide, by decide, rfl,
    (inbound_event_unchecked [] [.connect, .connect] twoSockets rfl rfl 0 blankMsg 0
      (by decide) (by decide) (by decide)).1 (blankDoc 0 0) rfl⟩

/-! ### A rejected save -/

/-- C3, as stated, fails: after the save of a message of socket 0 has been rejected the
process has exited, and socket 0 has been sent nothing and is sent nothing later, so no
error report either. -/
theorem storage_failure_counterexample :
    run (boot []) rejectRun = some rejectState ∧ rejectState.exited = true ∧
    outbox 0 rejectState.emitted = [] ∧
    ∀ more u, run rejectState more = some u → outbox 0 u.emitted = [] :=
  ⟨rfl, rfl, rfl, fun _ u hu => by
    have h := (after_run (s := rejectState) rfl hu).2.1
    rw [h]
    rfl⟩

/-- C3, amended.  When the save of an inbound `'message'` event is rejected, no error
report is emitted: the step emits nothing, to the originating socket as little as to any
other, and leaves the store as it was; the rejection is unhandled, so the process exits
and every socket is dropped.  The document is not in the store then, and in no later state
is it in the store, is anything emitted, or is a socket connected. -/
theorem storage_failure_exits (stored : List Message) (acts : List Action) (s : State)
    (hr : run (boot stored) acts = some s) (hx : s.exited = false) (i : Nat)
    (c : SocketId) (m : Message) (hl : lookupDoc i s.saving = some (c, m)) :
    ∃ t, step s (.saveFail i) = some t ∧ t.exited = true ∧ t.openSockets = [] ∧
      t.emitted = s.emitted ∧ (∀ d, outbox d t.emitted = outbox d s.emitted) ∧
      t.store = s.store ∧ m ∉ t.store ∧
      ∀ more u, run t more = some u →
        u.exited = true ∧ u.openSockets = [] ∧ u.emitted = s.emitted ∧
        (∀ d, outbox d u.emitted = outbox d s.emitted) ∧ m ∉ u.store := by
  have hi := docInv_reachable hr
  have hid : m.id = i := (lookupDoc_some hl).2
  subst hid
  have hst := saveFail_spec hx hl
  have hnil : run (crash { s with saving := dropDoc m.id s.saving }) [] = some _ := rfl
  have hnow := failed_never hi hl hnil
  refine ⟨_, hst, rfl, rfl, rfl, fun _ => rfl, rfl, hnow.2.2.2.1, ?_⟩
  intro more u hu
  have hlater := failed_never hi hl hu
  exact ⟨hlater.1, hlater.2.1, hlater.2.2.1, fun d => by rw [hlater.2.2.1],
    hlater.2.2.2.1⟩

/-- A rejected save with a second socket connected, for `storage_failure_exits`. -/
theorem storage_failure_exits_witness :
    run (boot []) [.connect, .connect, .receive 0 hiMsg 0] = some inFlightState ∧
    inFlightState.exited = false ∧
    lookupDoc 0 inFlightState.saving = some (0, textDoc 0 0 "alice" "hi") ∧
    ∃ t, step inFlightState (.saveFail 0) = some t ∧ t.exited = true ∧ t.openSockets = [] ∧
      t.emitted = inFlightState.emitted ∧
      (∀ d, outbox d t.emitted = outbox d inFlightState.emitted) ∧
      t.store = inFlightState.store ∧ textDoc 0 0 "alice" "hi" ∉ t.store ∧
      ∀ more u, run t more = some u →
        u.exited = true ∧ u.openSockets = [] ∧ u.emitted = inFlightState.emitted ∧
        (∀ d, outbox d u.emitted = outbox d inFlightState.emitted) ∧
        textDoc 0 0 "alice" "hi" ∉ u.store :=
  ⟨rfl, rfl, rfl,
    storage_failure_exits [] [.connect, .connect, .receive 0 hiMsg 0] inFlightState rfl rfl 0 0
      (textDoc 0 0 "alice" "hi") rfl⟩

/-! ### Broadcast -/

theorem acceptedCount_append (xs ys : List Action) :
    acceptedCount (xs ++ ys) = acceptedCount xs + acceptedCount ys := by
  induction xs with
  | nil => simp [acceptedCount]
  | cons a xs ih =>
    rw [List.cons_append]
    cases a with
    | connect =>
      simp only [acceptedCount]
      rw [ih]
      omega
    | _ => simpa [acceptedCount] using ih

theorem step_needs_running {s t : State} {a : Action} (hs : step s a = some t)
    (ha : survives a = false) : s.exited = false := by
  cases h : s.exited with
  | false => rfl
  | true =>
    have := step_exited h hs
    rw [ha] at this
    exact absurd this (by simp)

/-- While the process runs the connected sockets are those accepted and not closed by the
run; once it has exited none is connected. -/
theorem open_iff (stored : List Message) (acts : List Action) (s : State)
    (hr : run (boot stored) acts = some s) :
    s.nextConn = acceptedCount acts ∧ (∀ c ∈ closedSockets acts, c < s.nextConn) ∧
      (s.exited = false →
        ∀ d : Nat, d ∈ s.openSockets ↔ d < acceptedCount acts ∧ d ∉ closedSockets acts) ∧
      (s.exited = true → s.openSockets = []) := by
  refine run_induction stored
    (fun acts s => s.nextConn = acceptedCount acts ∧
      (∀ c ∈ closedSockets acts, c < s.nextConn) ∧
      (s.exited = false →
        ∀ d : Nat, d ∈ s.openSockets ↔ d < acceptedCount acts ∧ d ∉ closedSockets acts) ∧
      (s.exited = true → s.openSockets = []))
    ?_ ?_ acts s hr
  · simp [boot, acceptedCount, closedSockets]
  · intro acts s a t hrs ih hs0
    obtain ⟨ih1, ih2, ih3, ih4⟩ := ih
    have hi := sockInv_reachable hrs
    have hneed := step_needs_running hs0
    have hs := step_act hs0
    rw [acceptedCount_append, closedSockets_append]
    cases a with
    | tick =>
      simp only [act, Option.some.injEq] at hs
      subst hs
      simpa [acceptedCount, closedSockets] using ⟨ih1, ih2, ih3, ih4⟩
    | connect =>
      simp only [act, Option.some.injEq] at hs
      subst hs
      have hx : s.exited = false := hneed rfl
      have ih3 := ih3 hx
      simp only [acceptedCount, closedSockets, List.append_nil, List.mem_append,
        List.mem_singleton]
      refine ⟨by omega, fun c hc => Nat.lt_succ_of_lt (ih2 c hc), fun _ => ?_, fun h => ?_⟩
      · intro d
        rw [ih3 d]
        constructor
        · rintro (⟨h1, h2⟩ | h)
          · exact ⟨by omega, h2⟩
          · subst h
            refine ⟨by omega, ?_⟩
            intro hm
            exact Nat.lt_irrefl _ (ih2 _ hm)
        · rintro ⟨h1, h2⟩
          by_cases hd : d = s.nextConn
          · exact Or.inr hd
          · exact Or.inl ⟨by omega, h2⟩
      · rw [hx] at h
        simp at h
    | findRead d h0 =>
      simp only [act] at hs
      split at hs
      · rename_i hg
        simp only [Option.some.injEq] at hs
        subst hs
        simpa [acceptedCount, closedSockets] using ⟨ih1, ih2, ih3, ih4⟩
      · simp at hs
    | findFail d =>
      simp only [act] at hs
      split at hs
      · rename_i hg
        simp only [Option.some.injEq] at hs
        subst hs
        refine ⟨by simpa [acceptedCount, crash] using ih1,
          by simpa [closedSockets, crash] using ih2, fun h => ?_, fun _ => rfl⟩
        simp [crash] at h
      · simp at hs
    | initEmit d =>
      simp only [act] at hs
      split at hs
      · rename_i c2 h0 hl
        simp only [Option.some.injEq] at hs
        subst hs
        simpa [acceptedCount, closedSockets] using ⟨ih1, ih2, ih3, ih4⟩
      · simp at hs
    | receive d msg oid =>
      simp only [act] at hs
      split at hs
      · rename_i hg
        split at hs
        · rename_i m0 hm0
          simp only [Option.some.injEq] at hs
          subst hs
          simpa [acceptedCount, closedSockets] using ⟨ih1, ih2, ih3, ih4⟩
        · simp only [Option.some.injEq] at hs
          subst hs
          refine ⟨by simpa [acceptedCount, crash] using ih1,
            by simpa [closedSockets, crash] using ih2, fun h => ?_, fun _ => rfl⟩
          simp [crash] at h
      · simp at hs
    | saveCommit j =>
      simp only [act] at hs
      split at hs
      · rename_i c0 m0 hl
        simp only [Option.some.injEq] at hs
        subst hs
        simpa [acceptedCount, closedSockets] using ⟨ih1, ih2, ih3, ih4⟩
      · simp at hs
    | saveFail j =>
      simp only [act] at hs
      split at hs
      · rename_i p0 hl
        simp only [Option.some.injEq] at hs
        subst hs
        refine ⟨by simpa [acceptedCount, crash] using ih1,
          by simpa [closedSockets, crash] using ih2, fun h => ?_, fun _ => rfl⟩
        simp [crash] at h
      · simp at hs
    | resume j =>
      simp only [act] at hs
      split at hs
      · rename_i c0 m0 hl
        simp only [Option.some.injEq] at hs
        subst hs
        simpa [acceptedCount, closedSockets] using ⟨ih1, ih2, ih3, ih4⟩
      · simp at hs
    | disconnect d =>
      simp only [act] at hs
      split at hs
      · rename_i hg
        simp only [Option.some.injEq] at hs
        subst hs
        have hx : s.exited = false := hneed rfl
        have ih3 := ih3 hx
        simp only [acceptedCount, closedSockets, List.mem_append, List.mem_singleton,
          Nat.add_zero]
        refine ⟨ih1, ?_, fun _ => ?_, fun h => ?_⟩
        · rintro c (hd | hd)
          · exact ih2 c hd
          · subst hd
            exact hi.openLt _ hg
        · intro c
          rw [List.mem_filter, ih3 c]
          simp only [bne_iff_ne, ne_eq, not_or]
          tauto
        · rw [hx] at h
          simp at h
      · simp at hs

/-- C7 (the recipients of a broadcast are the connected sockets).  In every run, while the
process runs the connected sockets are exactly those the run has accepted and not closed.
Every broadcast that takes place, a handler resuming after its save, happens while the
process runs and emits one `'message'` event carrying the inserted document: a socket is
sent it exactly when it is connected at that moment, in particular the originating socket
when it is still connected and no socket that has been closed.  While the process runs the
handler of every inserted document can resume, whatever sockets have been closed
meanwhile. -/
theorem broadcast_recipients (stored : List Message) (acts : List Action) (s : State)
    (hr : run (boot stored) acts = some s) :
    (s.exited = false → ∀ d : SocketId,
      d ∈ s.openSockets ↔ d < acceptedCount acts ∧ d ∉ closedSockets acts) ∧
    (∀ i t, step s (.resume i) = some t → ∃ c m, (c, m) ∈ s.saved ∧ m.id = i ∧
      s.exited = false ∧
      t.emitted = s.emitted ++ [⟨s.openSockets, .message m⟩] ∧
      (∀ d : SocketId, Event.message m ∈ outbox d t.emitted ↔ d ∈ s.openSockets) ∧
      (∀ d : SocketId, Event.message m ∈ outbox d t.emitted ↔
        d < acceptedCount acts ∧ d ∉ closedSockets acts) ∧
      (c ∈ s.openSockets → Event.message m ∈ outbox c t.emitted) ∧
      (∀ d ∈ closedSockets acts, Event.message m ∉ outbox d t.emitted)) ∧
    (s.exited = false → ∀ c m, (c, m) ∈ s.saved → ∃ t, step s (.resume m.id) = some t) := by
  have hi := docInv_reachable hr
  have hopen := (open_iff stored acts s hr).2.2.1
  refine ⟨hopen, ?_, fun hx c m hm => ⟨_, resume_spec hi hx hm⟩⟩
  intro i t hs
  have hx : s.exited = false := step_needs_running hs rfl
  have hopen := hopen hx
  have hs2 := step_act hs
  simp only [act] at hs2
  split at hs2
  · rename_i c m hl
    simp only [Option.some.injEq] at hs2
    subst hs2
    obtain ⟨hm, hid⟩ := lookupDoc_some hl
    have hiff : ∀ d : SocketId, Event.message m ∈
        outbox d (s.emitted ++ [⟨s.openSockets, .message m⟩]) ↔ d ∈ s.openSockets := by
      intro d
      rw [mem_outbox]
      constructor
      · rintro ⟨e, he, hd, hev⟩
        rcases List.mem_append.1 he with he | he
        · exfalso
          have hb : m ∈ broadcasts s.emitted := mem_broadcasts.2 ⟨e, he, hev⟩
          exact (List.nodup_append.1 hi.castNodup).2.2 (List.mem_map.2 ⟨m, hb, rfl⟩)
            (List.mem_map.2 ⟨(c, m), hm, rfl⟩)
        · rw [List.mem_singleton] at he
          subst he
          exact hd
      · intro hd
        exact ⟨_, List.mem_append_right _ (List.mem_singleton.2 rfl), hd, rfl⟩
    refine ⟨c, m, hm, hid, hx, rfl, hiff, ?_, ?_, ?_⟩
    · intro d
      exact (hiff d).trans (hopen d)
    · intro hc
      exact (hiff c).2 hc
    · intro d hd hmem
      exact ((hopen d).1 ((hiff d).1 hmem)).2 hd
  · simp at hs2

/-- An inserted document whose socket has been closed and whose handler has yet to resume, for `broadcast_recipients`. -/
theorem broadcast_recipients_witness :
    run (boot []) departRun = some departState ∧
    (departState.exited = false → ∀ d : SocketId,
      d ∈ departState.openSockets ↔ d < acceptedCount departRun ∧ d ∉ closedSockets departRun) ∧
    (∀ i t, step departState (.resume i) = some t → ∃ c m, (c, m) ∈ departState.saved ∧
      m.id = i ∧ departState.exited = false ∧
      t.emitted = departState.emitted ++ [⟨departState.openSockets, .message m⟩] ∧
      (∀ d : SocketId, Event.message m ∈ outbox d t.emitted ↔ d ∈ departState.openSockets) ∧
      (∀ d : SocketId, Event.message m ∈ outbox d t.emitted ↔
        d < acceptedCount departRun ∧ d ∉ closedSockets departRun) ∧
      (c ∈ departState.openSockets → Event.message m ∈ outbox c t.emitted) ∧
      (∀ d ∈ closedSockets departRun, Event.message m ∉ outbox d t.emitted)) ∧
    (departState.exited = false → ∀ c m, (c, m) ∈ departState.saved →
      ∃ t, step departState (.resume m.id) = some t) :=
  ⟨rfl, broadcast_recipients [] departRun departState rfl⟩

/-! ### Disconnect -/

/-- A save stays in flight until the database inserts or rejects the document, whatever
else happens. -/
theorem saving_act {s t : State} {a : Action} {p : SocketId × Message}
    (hp : p ∈ s.saving) (hs : act s a = some t) (h1 : a ≠ .saveCommit p.2.id)
    (h2 : a ≠ .saveFail p.2.id) : p ∈ t.saving := by
  cases a with
  | tick =>
    simp only [act, Option.some.injEq] at hs
    subst hs
    exact hp
  | connect =>
    simp only [act, Option.some.injEq] at hs
    subst hs
    exact hp
  | findRead d h0 =>
    simp only [act] at hs
    split at hs
    · rename_i hg
      simp only [Option.some.injEq] at hs
      subst hs
      exact hp
    · simp at hs
  | findFail d =>
    simp only [act] at hs
    split at hs
    · rename_i hg
      simp only [Option.some.injEq] at hs
      subst hs
      exact hp
    · simp at hs
  | initEmit d =>
    simp only [act] at hs
    split at hs
    · rename_i c2 h0 hl
      simp only [Option.some.injEq] at hs
      subst hs
      exact hp
    · simp at hs
  | receive d msg oid =>
    simp only [act] at hs
    split at hs
    · rename_i hg
      split at hs
      · rename_i m0 hm0
        simp only [Option.some.injEq] at hs
        subst hs
        exact List.mem_append_left _ hp
      · simp only [Option.some.injEq] at hs
        subst hs
        exact hp
    · simp at hs
  | saveCommit j =>
    simp only [act] at hs
    split at hs
    · rename_i c0 m0 hl
      simp only [Option.some.injEq] at hs
      subst hs
      exact mem_dropDoc.2 ⟨hp, fun e => h1 (e ▸ rfl)⟩
    · simp at hs
  | saveFail j =>
    simp only [act] at hs
    split at hs
    · rename_i p0 hl
      simp only [Option.some.injEq] at hs
      subst hs
      exact mem_dropDoc.2 ⟨hp, fun e => h2 (e ▸ rfl)⟩
    · simp at hs
  | resume j =>
    simp only [act] at hs
    split at hs
    · rename_i c0 m0 hl
      simp only [Option.some.injEq] at hs
      subst hs
      exact hp
    · simp at hs
  | disconnect d =>
    simp only [act] at hs
    split at hs
    · rename_i hg
      simp only [Option.some.injEq] at hs
      subst hs
      exact hp
    · simp at hs

theorem saving_run {s t : State} {acts : List Action} {p : SocketId × Message}
    (hp : p ∈ s.saving) (hr : run s acts = some t) (h1 : .saveCommit p.2.id ∉ acts)
    (h2 : .saveFail p.2.id ∉ acts) : p ∈ t.saving := by
  induction acts generalizing s with
  | nil =>
    simp only [run, Option.some.injEq] at hr
    subst hr
    exact hp
  | cons a acts ih =>
    simp only [run] at hr
    simp only [List.mem_cons, not_or] at h1 h2
    cases hs : step s a with
    | none => simp [hs] at hr
    | some u =>
      simp only [hs] at hr
      exact ih (saving_act hp (step_act hs) (fun e => h1.1 e.symm) (fun e => h2.1 e.symm))
        hr h1.2 h2.2

/-- An inserted document waits until its handler resumes. -/
theorem saved_act {s t : State} {a : Action} {p : SocketId × Message}
    (hp : p ∈ s.saved) (hs : act s a = some t) (h1 : a ≠ .resume p.2.id) :
    p ∈ t.saved := by
  cases a with
  | tick =>
    simp only [act, Option.some.injEq] at hs
    subst hs
    exact hp
  | connect =>
    simp only [act, Option.some.injEq] at hs
    subst hs
    exact hp
  | findRead d h0 =>
    simp only [act] at hs
    split at hs
    · rename_i hg
      simp only [Option.some.injEq] at hs
      subst hs
      exact hp
    · simp at hs
  | findFail d =>
    simp only [act] at hs
    split at hs
    · rename_i hg
      simp only [Option.some.injEq] at hs
      subst hs
      exact hp
    · simp at hs
  | initEmit d =>
    simp only [act] at hs
    split at hs
    · rename_i c2 h0 hl
      simp only [Option.some.injEq] at hs
      subst hs
      exact hp
    · simp at hs
  | receive d msg oid =>
    simp only [act] at hs
    split at hs
    · rename_i hg
      split at hs
      · rename_i m0 hm0
        simp only [Option.some.injEq] at hs
        subst hs
        exact hp
      · simp only [Option.some.injEq] at hs
        subst hs
        exact hp
    · simp at hs
  | saveCommit j =>
    simp only [act] at hs
    split at hs
    · rename_i c0 m0 hl
      simp only [Option.some.injEq] at hs
      subst hs
      exact List.mem_append_left _ hp
    · simp at hs
  | saveFail j =>
    simp only [act] at hs
    split at hs
    · rename_i p0 hl
      simp only [Option.some.injEq] at hs
      subst hs
      exact hp
    · simp at hs
  | resume j =>
    simp only [act] at hs
    split at hs
    · rename_i c0 m0 hl
      simp only [Option.some.injEq] at hs
      subst hs
      exact mem_dropDoc.2 ⟨hp, fun e => h1 (e ▸ rfl)⟩
    · simp at hs
  | disconnect d =>
    simp only [act] at hs
    split at hs
    · rename_i hg
      simp only [Option.some.injEq] at hs
      subst hs
      exact hp
    · simp at hs

theorem saved_run {s t : State} {acts : List Action} {p : SocketId × Message}
    (hp : p ∈ s.saved) (hr : run s acts = some t) (h1 : .resume p.2.id ∉ acts) :
    p ∈ t.saved := by
  induction acts generalizing s with
  | nil =>
    simp only [run, Option.some.injEq] at hr
    subst hr
    exact hp
  | cons a acts ih =>
    simp only [run] at hr
    simp only [List.mem_cons, not_or] at h1
    cases hs : step s a with
    | none => simp [hs] at hr
    | some u =>
      simp only [hs] at hr
      exact ih (saved_act hp (step_act hs) (fun e => h1.1 e.symm)) hr h1.2

/-- A closed socket stays closed. -/
theorem closed_act {s t : State} {a : Action} {c : SocketId}
    (hc : c < s.nextConn ∧ c ∉ s.openSockets) (hs : act s a = some t) :
    c < t.nextConn ∧ c ∉ t.openSockets := by
  cases a with
  | tick =>
    simp only [act, Option.some.injEq] at hs
    subst hs
    exact hc
  | connect =>
    simp only [act, Option.some.injEq] at hs
    subst hs
    refine ⟨Nat.lt_succ_of_lt hc.1, ?_⟩
    intro hm
    rcases List.mem_append.1 hm with hm | hm
    · exact hc.2 hm
    · rw [List.mem_singleton] at hm
      exact Nat.lt_irrefl _ (hm ▸ hc.1)
  | findRead d h0 =>
    simp only [act] at hs
    split at hs
    · rename_i hg
      simp only [Option.some.injEq] at hs
      subst hs
      exact hc
    · simp at hs
  | findFail d =>
    simp only [act] at hs
    split at hs
    · rename_i hg
      simp only [Option.some.injEq] at hs
      subst hs
      exact ⟨hc.1, by simp [crash]⟩
    · simp at hs
  | initEmit d =>
    simp only [act] at hs
    split at hs
    · rename_i c2 h0 hl
      simp only [Option.some.injEq] at hs
      subst hs
      exact hc
    · simp at hs
  | receive d msg oid =>
    simp only [act] at hs
    split at hs
    · rename_i hg
      split at hs
      · rename_i m0 hm0
        simp only [Option.some.injEq] at hs
        subst hs
        exact hc
      · simp only [Option.some.injEq] at hs
        subst hs
        exact ⟨hc.1, by simp [crash]⟩
    · simp at hs
  | saveCommit j =>
    simp only [act] at hs
    split at hs
    · rename_i c0 m0 hl
      simp only [Option.some.injEq] at hs
      subst hs
      exact hc
    · simp at hs
  | saveFail j =>
    simp only [act] at hs
    split at hs
    · rename_i p0 hl
      simp only [Option.some.injEq] at hs
      subst hs
      exact ⟨hc.1, by simp [crash]⟩
    · simp at hs
  | resume j =>
    simp only [act] at hs
    split at hs
    · rename_i c0 m0 hl
      simp only [Option.some.injEq] at hs
      subst hs
      exact hc
    · simp at hs
  | disconnect d =>
    simp only [act] at hs
    split at hs
    · rename_i hg
      simp only [Option.some.injEq] at hs
      subst hs
      exact ⟨hc.1, fun hm => hc.2 (List.mem_filter.1 hm).1⟩
    · simp at hs

theorem closed_run {s t : State} {acts : List Action} {c : SocketId}
    (hc : c < s.nextConn ∧ c ∉ s.openSockets) (hr : run s acts = some t) :
    c < t.nextConn ∧ c ∉ t.openSockets := by
  induction acts generalizing s with
  | nil =>
    simp only [run, Option.some.injEq] at hr
    subst hr
    exact hc
  | cons a acts ih =>
    simp only [run] at hr
    cases hs : step s a with
    | none => simp [hs] at hr
    | some u =>
      simp only [hs] at hr
      exact ih (closed_act hc (step_act hs)) hr

/-- C8, as stated, fails: socket 0 is closed while its message is being saved; the save
succeeds, but before the handler resumes the save of another message is rejected and the
process exits.  The message of socket 0 is in the store and is never broadcast. -/
theorem outlives_counterexample :
    run (boot []) orphanRun = some orphanState ∧
    textDoc 0 0 "alice" "hi" ∈ orphanState.store ∧
    orphanState.exited = true ∧ orphanState.emitted = [] ∧
    ∀ more u, run orphanState more = some u → u.emitted = [] :=
  ⟨rfl, by decide, rfl, rfl, fun _ u hu => (after_run (s := orphanState) rfl hu).2.1⟩

/-- C8, amended.  Closing a socket while the save of a document built from one of its
events is in flight cancels nothing: the save stays in flight through every later step
other than its own completion; the database can still insert the document, which appends
it to the store; and after any further steps, as long as the process is still running, the
handler can resume and then emits a `'message'` event carrying the document to every
socket connected at that moment, the closed one not among them. -/
theorem message_outlives_connection (stored : List Message) (acts : List Action) (s : State)
    (hr : run (boot stored) acts = some s) (c : SocketId) (m : Message)
    (hm : (c, m) ∈ s.saving) (hc : c ∈ s.openSockets) :
    ∃ t, step s (.disconnect c) = some t ∧ c ∉ t.openSockets ∧ t.saving = s.saving ∧
      ∀ mid u, run t mid = some u → .saveCommit m.id ∉ mid → .saveFail m.id ∉ mid →
        (c, m) ∈ u.saving ∧
        ∃ v, step u (.saveCommit m.id) = some v ∧ v.store = u.store ++ [m] ∧
          ∀ mid2 w, run v mid2 = some w → .resume m.id ∉ mid2 → w.exited = false →
            ∃ x, step w (.resume m.id) = some x ∧
              x.emitted = w.emitted ++ [⟨w.openSockets, .message m⟩] ∧
              c ∉ w.openSockets := by
  have hi := docInv_reachable hr
  have hs := sockInv_reachable hr
  have hx : s.exited = false := by
    cases h : s.exited with
    | false => rfl
    | true =>
      have := (open_iff stored acts s hr).2.2.2 h
      rw [this] at hc
      simp at hc
  have h1 : step s (.disconnect c) = some { s with
      openSockets := s.openSockets.filter (fun d => d != c) } := by
    rw [step_running _ hx]
    simp [act, hc]
  have hclosed : c < s.nextConn ∧ c ∉ s.openSockets.filter (fun d => d != c) := by
    refine ⟨hs.openLt c hc, ?_⟩
    intro hmem
    have := (List.mem_filter.1 hmem).2
    simp at this
  refine ⟨_, h1, hclosed.2, rfl, ?_⟩
  intro mid u hu hn1 hn2
  have hi1 := docInv_step hi h1
  have hiu := docInv_run hi1 hu
  have hcu := closed_run (s := { s with openSockets := s.openSockets.filter (fun d => d != c) })
    hclosed hu
  have hmu : (c, m) ∈ u.saving :=
    saving_run (s := { s with openSockets := s.openSockets.filter (fun d => d != c) })
      hm hu hn1 hn2
  have h2 := saveCommit_spec hiu hmu
  refine ⟨hmu, _, h2, rfl, ?_⟩
  intro mid2 w hw hn3 hxw
  have hiv := docInv_step hiu h2
  have hiw := docInv_run hiv hw
  have hmw : (c, m) ∈ w.saved := saved_run (by simp) hw hn3
  have hcw := closed_run (s := { u with
      store := u.store ++ [m]
      saving := dropDoc m.id u.saving
      saved := u.saved ++ [(c, m)] }) hcu hw
  exact ⟨_, resume_spec hiw hxw hmw, rfl, hcw.2⟩

/-- The first of two sockets is closed while its message is being saved, for
`message_outlives_connection`. -/
theorem message_outlives_connection_witness :
    run (boot []) [.connect, .connect, .receive 0 hiMsg 0] = some inFlightState ∧
    (0, textDoc 0 0 "alice" "hi") ∈ inFlightState.saving ∧ 0 ∈ inFlightState.openSockets ∧
    ∃ t, step inFlightState (.disconnect 0) = some t ∧ 0 ∉ t.openSockets ∧
      t.saving = inFlightState.saving ∧
      ∀ mid u, run t mid = some u → .saveCommit (textDoc 0 0 "alice" "hi").id ∉ mid →
        .saveFail (textDoc 0 0 "alice" "hi").id ∉ mid →
        (0, textDoc 0 0 "alice" "hi") ∈ u.saving ∧
        ∃ v, step u (.saveCommit (textDoc 0 0 "alice" "hi").id) = some v ∧
          v.store = u.store ++ [textDoc 0 0 "alice" "hi"] ∧
          ∀ mid2 w, run v mid2 = some w → .resume (textDoc 0 0 "alice" "hi").id ∉ mid2 →
            w.exited = false →
            ∃ x, step w (.resume (textDoc 0 0 "alice" "hi").id) = some x ∧
              x.emitted = w.emitted ++ [⟨w.openSockets, .message (textDoc 0 0 "alice" "hi")⟩] ∧
              0 ∉ w.openSockets :=
  ⟨rfl, by decide, by decide,
    message_outlives_connection [] [.connect, .connect, .receive 0 hiMsg 0] inFlightState rfl 0
      (textDoc 0 0 "alice" "hi") (by decide) (by decide)⟩

/-! ### History sync -/

theorem running_run_before {s u : State} {acts : List Action} (hr : run s acts = some u)
    (hx : u.exited = false) : s.exited = false := by
  induction acts generalizing s with
  | nil =>
    simp only [run, Option.some.injEq] at hr
    subst hr
    exact hx
  | cons a acts ih =>
    simp only [run] at hr
    cases hs : step s a with
    | none => simp [hs] at hr
    | some w =>
      simp only [hs] at hr
      exact running_before hs (ih hr)

/-- A query result stays pending until its callback runs, as long as the process runs. -/
theorem pending_act {s t : State} {a : Action} {c : SocketId} {h : List Message}
    (hp : (c, h) ∈ s.findDone) (hs : act s a = some t) (ha : a ≠ .initEmit c)
    (hx : t.exited = false) : (c, h) ∈ t.findDone := by
  cases a with
  | tick =>
    simp only [act, Option.some.injEq] at hs
    subst hs
    exact hp
  | connect =>
    simp only [act, Option.some.injEq] at hs
    subst hs
    exact hp
  | findRead d h0 =>
    simp only [act] at hs
    split at hs
    · rename_i hg
      simp only [Option.some.injEq] at hs
      subst hs
      exact List.mem_append_left _ hp
    · simp at hs
  | findFail d =>
    simp only [act] at hs
    split at hs
    · rename_i hg
      simp only [Option.some.injEq] at hs
      subst hs
      simp [crash] at hx
    · simp at hs
  | initEmit d =>
    simp only [act] at hs
    split at hs
    · rename_i c2 h0 hl
      simp only [Option.some.injEq] at hs
      subst hs
      refine List.mem_filter.2 ⟨hp, ?_⟩
      have hne : c ≠ d := fun e => ha (e ▸ rfl)
      simpa using hne
    · simp at hs
  | receive d msg oid =>
    simp only [act] at hs
    split at hs
    · rename_i hg
      split at hs
      · rename_i m0 hm0
        simp only [Option.some.injEq] at hs
        subst hs
        exact hp
      · simp only [Option.some.injEq] at hs
        subst hs
        simp [crash] at hx
    · simp at hs
  | saveCommit j =>
    simp only [act] at hs
    split at hs
    · rename_i c0 m0 hl
      simp only [Option.some.injEq] at hs
      subst hs
      exact hp
    · simp at hs
  | saveFail j =>
    simp only [act] at hs
    split at hs
    · rename_i p0 hl
      simp only [Option.some.injEq] at hs
      subst hs
      simp [crash] at hx
    · simp at hs
  | resume j =>
    simp only [act] at hs
    split at hs
    · rename_i c0 m0 hl
      simp only [Option.some.injEq] at hs
      subst hs
      exact hp
    · simp at hs
  | disconnect d =>
    simp only [act] at hs
    split at hs
    · rename_i hg
      simp only [Option.some.injEq] at hs
      subst hs
      exact hp
    · simp at hs

theorem pending_run {s t : State} {acts : List Action} {c : SocketId} {h : List Message}
    (hp : (c, h) ∈ s.findDone) (hr : run s acts = some t) (ha : .initEmit c ∉ acts)
    (hx : t.exited = false) : (c, h) ∈ t.findDone := by
  induction acts generalizing s with
  | nil =>
    simp only [run, Option.some.injEq] at hr
    subst hr
    exact hp
  | cons a acts ih =>
    simp only [run] at hr
    simp only [List.mem_cons, not_or] at ha
    cases hs : step s a with
    | none => simp [hs] at hr
    | some u =>
      simp only [hs] at hr
      exact ih (pending_act hp (step_act hs) (fun e => ha.1 e.symm)
        (running_run_before hr hx)) hr ha.2

theorem initsOf_append (xs ys : List Event) :
    initsOf (xs ++ ys) = initsOf xs ++ initsOf ys := by
  induction xs with
  | nil => rfl
  | cons e xs ih => cases e <;> simp [initsOf, ih]

theorem initsOf_outbox_le (c : SocketId) (es : List Emission) :
    (initsOf (outbox c es)).length ≤ (initTargets es).count c := by
  induction es with
  | nil => simp [outbox, initsOf]
  | cons e es ih =>
    have hcons : outbox c (e :: es) = outbox c [e] ++ outbox c es := outbox_append c [e] es
    rw [hcons, initsOf_append, List.length_append]
    rcases e with ⟨t, ev⟩
    cases ev with
    | init h =>
      simp only [initTargets, List.count_append]
      by_cases hc : c ∈ t
      · have hpos : 0 < t.count c := List.count_pos_iff.2 hc
        simp only [outbox, List.filterMap_cons, hc, if_true, List.filterMap_nil, initsOf,
          List.length_cons, List.length_nil]
        simp only [outbox] at ih
        omega
      · simp only [outbox, List.filterMap_cons, hc, if_false, List.filterMap_nil, initsOf,
          List.length_nil]
        simp only [outbox] at ih
        omega
    | message m =>
      simp only [initTargets]
      by_cases hc : c ∈ t
      · simp only [outbox, List.filterMap_cons, hc, if_true, List.filterMap_nil, initsOf,
          List.length_nil]
        simp only [outbox] at ih
        omega
      · simp only [outbox, List.filterMap_cons, hc, if_false, List.filterMap_nil, initsOf,
          List.length_nil]
        simp only [outbox] at ih
        omega

/-- No socket is sent more than one `'init'`. -/
theorem inits_le_one {s : State} (hi : SockInv s) (c : SocketId) :
    (initsOf (outbox c s.emitted)).length ≤ 1 := by
  have hn : (initTargets s.emitted).Nodup :=
    (List.nodup_append.1 (List.nodup_append.1 hi.initOnce).1).1
  exact (initsOf_outbox_le c s.emitted).trans (List.nodup_iff_count_le_one.1 hn c)

/-- C6, as stated, fails.  In `newestFirstRun` the `'init'` payload of socket 1 is the
collection as the read returned it, in its order, and its first message was created after
its second: the payload is not in creation order, oldest first.  And a socket whose
history read is rejected is sent no `'init'`, then or later: the process has exited. -/
theorem history_sync_counterexample :
    run (boot []) newestFirstRun = some newestFirstState ∧
    initsOf (outbox 1 newestFirstState.emitted)
      = [[textDoc 1 1 "alice" "yo", textDoc 0 0 "alice" "hi"]] ∧
    (textDoc 0 0 "alice" "hi").timestamp < (textDoc 1 1 "alice" "yo").timestamp ∧
    run (boot []) [.connect, .findFail 0] = some failedReadState ∧
    failedReadState.exited = true ∧
    ∀ more u, run failedReadState more = some u → outbox 0 u.emitted = [] :=
  ⟨rfl, rfl, by decide, rfl, rfl, fun _ u hu => by
    have h := (after_run (s := failedReadState) rfl hu).2.1
    rw [h]
    rfl⟩

/-- C6, amended.  In every run: accepting a socket emits nothing and issues one history
read for it.  A history read returns every document stored at the time of the read, each
as often as it is stored, in an order the database chooses, and emits nothing; as long as
the process is still running, its callback can run after any further steps and then emits
one `'init'` event, addressed to that socket alone, whose payload is what the read
returned, and that is the only `'init'` the socket has been sent.  A history read that is
rejected makes the process exit, and nothing is emitted any more.  No socket is ever sent
more than one `'init'`, and every `'init'` emission addresses a single socket. -/
theorem history_sync_on_join (stored : List Message) (acts : List Action) (s : State)
    (hr : run (boot stored) acts = some s) :
    (s.exited = false → ∃ t, step s .connect = some t ∧ t.emitted = s.emitted ∧
      t.findIssued = s.findIssued ++ [s.nextConn] ∧ s.nextConn ∉ s.findIssued) ∧
    (s.exited = false → ∀ c ∈ s.findIssued, ∀ h, h.Perm s.store →
      ∃ t, step s (.findRead c h) = some t) ∧
    (∀ c h t, step s (.findRead c h) = some t → h.Perm s.store ∧ t.emitted = s.emitted ∧
      ∀ mid u, run t mid = some u → .initEmit c ∉ mid → u.exited = false →
        ∃ v, step u (.initEmit c) = some v ∧
          v.emitted = u.emitted ++ [⟨[c], .init h⟩] ∧
          initsOf (outbox c v.emitted) = [h]) ∧
    (∀ c t, step s (.findFail c) = some t → t.exited = true ∧ t.emitted = s.emitted ∧
      ∀ more u, run t more = some u → u.emitted = s.emitted) ∧
    (∀ c, (initsOf (outbox c s.emitted)).length ≤ 1) ∧
    (∀ e ∈ s.emitted, ∀ h, e.event = .init h → ∃ c, e.targets = [c]) := by
  have hi := sockInv_reachable hr
  refine ⟨?_, ?_, ?_, ?_, inits_le_one hi, hi.initAlone⟩
  · intro hx
    have k : step s .connect = some { s with
        nextConn := s.nextConn + 1
        openSockets := s.openSockets ++ [s.nextConn]
        findIssued := s.findIssued ++ [s.nextConn] } := by
      rw [step_running _ hx]
      rfl
    exact ⟨_, k, rfl, rfl, fun hm => Nat.lt_irrefl _ (hi.issuedLt _ hm)⟩
  · intro hx c hc h hp
    have k : step s (.findRead c h) = some { s with
        findIssued := s.findIssued.filter (fun d => d != c)
        findDone := s.findDone ++ [(c, h)] } := by
      rw [step_running _ hx]
      simp only [act]
      rw [if_pos ⟨hc, List.isPerm_iff.2 hp⟩]
    exact ⟨_, k⟩
  · intro c h t hs
    have hs2 := step_act hs
    simp only [act] at hs2
    split at hs2
    · rename_i hg
      simp only [Option.some.injEq] at hs2
      subst hs2
      refine ⟨List.isPerm_iff.1 hg.2, rfl, ?_⟩
      intro mid u hu hmid hxu
      have hi1 := sockInv_step hi hs
      have hiu := sockInv_run hi1 hu
      have hp : (c, h) ∈ u.findDone := pending_run (by simp) hu hmid hxu
      have h2 := initEmit_spec hiu hxu hp
      refine ⟨_, h2, rfl, ?_⟩
      have hiv := inits_le_one (sockInv_step hiu h2) c
      simp only [outbox_append, initsOf_append, List.length_append] at hiv ⊢
      have hlast : initsOf (outbox c [⟨[c], .init h⟩]) = [h] := by
        simp [outbox, initsOf]
      rw [hlast] at hiv ⊢
      have hnil : initsOf (outbox c u.emitted) = [] := by
        apply List.eq_nil_of_length_eq_zero
        simp only [List.length_singleton] at hiv
        omega
      rw [hnil]
      rfl
    · simp at hs2
  · intro c t hs
    have hs2 := step_act hs
    simp only [act] at hs2
    split at hs2
    · simp only [Option.some.injEq] at hs2
      subst hs2
      refine ⟨rfl, rfl, ?_⟩
      intro more u hu
      exact (after_run (s := crash s) rfl hu).2.1
    · simp at hs2

/-- A socket that joins after one message has been inserted, for `history_sync_on_join`. -/
theorem history_sync_on_join_witness :
    run (boot []) joinRun = some joinState ∧
    (joinState.exited = false → ∃ t, step joinState .connect = some t ∧
      t.emitted = joinState.emitted ∧
      t.findIssued = joinState.findIssued ++ [joinState.nextConn] ∧
      joinState.nextConn ∉ joinState.findIssued) ∧
    (joinState.exited = false → ∀ c ∈ joinState.findIssued, ∀ h, h.Perm joinState.store →
      ∃ t, step joinState (.findRead c h) = some t) ∧
    (∀ c h t, step joinState (.findRead c h) = some t → h.Perm joinState.store ∧
      t.emitted = joinState.emitted ∧
      ∀ mid u, run t mid = some u → .initEmit c ∉ mid → u.exited = false →
        ∃ v, step u (.initEmit c) = some v ∧
          v.emitted = u.emitted ++ [⟨[c], .init h⟩] ∧
          initsOf (outbox c v.emitted) = [h]) ∧
    (∀ c t, step joinState (.findFail c) = some t → t.exited = true ∧
      t.emitted = joinState.emitted ∧
      ∀ more u, run t more = some u → u.emitted = joinState.emitted) ∧
    (∀ c, (initsOf (outbox c joinState.emitted)).length ≤ 1) ∧
    (∀ e ∈ joinState.emitted, ∀ h, e.event = .init h → ∃ c, e.targets = [c]) :=
  ⟨rfl, history_sync_on_join [] joinRun joinState rfl⟩

/-! ### History -/

theorem historyView_skip {c : SocketId} {es : List Emission} (rest : List Event)
    (hc : c ∉ initTargets es) : historyView (outbox c es ++ rest) = historyView rest := by
  induction es with
  | nil => simp [outbox]
  | cons e es ih =>
    have h1 : outbox c (e :: es) = outbox c [e] ++ outbox c es := outbox_append c [e] es
    rw [h1, List.append_assoc]
    rcases e with ⟨t, ev⟩
    cases ev with
    | init h =>
      simp only [initTargets, List.mem_append, not_or] at hc
      have h2 : outbox c [⟨t, .init h⟩] = [] := by simp [outbox, hc.1]
      rw [h2, List.nil_append]
      exact ih hc.2
    | message m =>
      simp only [initTargets] at hc
      by_cases hm : c ∈ t
      · have h2 : outbox c [⟨t, .message m⟩] = [.message m] := by simp [outbox, hm]
        rw [h2]
        simp only [List.singleton_append, historyView]
        exact ih hc
      · have h2 : outbox c [⟨t, .message m⟩] = [] := by simp [outbox, hm]
        rw [h2, List.nil_append]
        exact ih hc

theorem messagesOf_outbox_all {c : SocketId} {es : List Emission}
    (h : ∀ e ∈ es, ∀ m, e.event = .message m → c ∈ e.targets) :
    messagesOf (outbox c es) = broadcasts es := by
  induction es with
  | nil => simp [outbox, broadcasts, messagesOf]
  | cons e es ih =>
    have h1 : outbox c (e :: es) = outbox c [e] ++ outbox c es := outbox_append c [e] es
    have h2 : broadcasts (e :: es) = broadcasts [e] ++ broadcasts es :=
      broadcasts_append [e] es
    rw [h1, h2, messagesOf_append, ih (fun e2 he2 => h e2 (List.mem_cons_of_mem _ he2))]
    congr 1
    rcases e with ⟨t, ev⟩
    cases ev with
    | init h0 =>
      by_cases hm : c ∈ t
      · simp [outbox, broadcasts, hm, messagesOf]
      · simp [outbox, broadcasts, hm, messagesOf]
    | message m =>
      have hm : c ∈ t := h ⟨t, .message m⟩ (List.mem_cons_self _ _) m rfl
      simp [outbox, broadcasts, hm, messagesOf]

/-- What a socket that is still connected is sent from its `'init'` on: the payload of
the `'init'` and then every broadcast made after it. -/
theorem view_of_split {s : State} (hs : SockInv s) {c : SocketId} (hc : c ∈ s.openSockets)
    {E1 E2 : List Emission} {h : List Message}
    (hsplit : s.emitted = E1 ++ ⟨[c], .init h⟩ :: E2) :
    historyView (outbox c s.emitted) = some (h ++ broadcasts E2) := by
  have hIT : (initTargets s.emitted).Nodup :=
    (List.nodup_append.1 (List.nodup_append.1 hs.initOnce).1).1
  have hc1 : c ∉ initTargets E1 := by
    rw [hsplit, initTargets_append] at hIT
    intro hm
    refine (List.nodup_append.1 hIT).2.2 hm ?_
    simp [initTargets]
  have hall : ∀ e ∈ E2, ∀ m, e.event = .message m → c ∈ e.targets :=
    hs.stillOpen c hc E1 _ E2 hsplit (by simp)
  have h1 : outbox c s.emitted = outbox c E1 ++ (Event.init h :: outbox c E2) := by
    have h2 : E1 ++ ⟨[c], .init h⟩ :: E2 = E1 ++ ([⟨[c], .init h⟩] ++ E2) := by simp
    rw [hsplit, h2, outbox_append, outbox_append]
    simp [outbox]
  rw [h1, historyView_skip _ hc1]
  simp only [historyView]
  rw [messagesOf_outbox_all hall]

theorem run_append_some {s t : State} {xs ys : List Action}
    (h : run s (xs ++ ys) = some t) : ∃ u, run s xs = some u ∧ run u ys = some t := by
  rw [run_append] at h
  cases hu : run s xs with
  | none => simp [hu] at h
  | some u =>
    simp only [hu, Option.some_bind] at h
    exact ⟨u, rfl, h⟩

theorem run_cons_some {s t : State} {a : Action} {acts : List Action}
    (h : run s (a :: acts) = some t) : ∃ u, step s a = some u ∧ run u acts = some t := by
  simp only [run] at h
  cases hs : step s a with
  | none => simp [hs] at h
  | some u =>
    simp only [hs] at h
    exact ⟨u, rfl, h⟩

theorem quiet_cons {a : Action} {acts : List Action} (h1 : ∀ i, a ≠ .saveCommit i)
    (h2 : ∀ i, a ≠ .resume i) : quiet (a :: acts) = quiet acts := by
  cases a <;> simp [quiet] at h1 h2 ⊢

theorem serial_cons {a : Action} {acts : List Action} (h1 : ∀ i, a ≠ .saveCommit i)
    (h2 : ∀ i, a ≠ .resume i) : serial (a :: acts) = serial acts := by
  cases a <;> simp [serial] at h1 h2 ⊢

/-- A quiet stretch leaves the collection and the inserted documents alone and broadcasts
nothing. -/
theorem quiet_run {s t : State} {acts : List Action} (hr : run s acts = some t)
    (hq : quiet acts = true) :
    t.saved = s.saved ∧ t.store = s.store ∧
      ∃ E, t.emitted = s.emitted ++ E ∧ broadcasts E = [] := by
  induction acts generalizing s with
  | nil =>
    simp only [run, Option.some.injEq] at hr
    subst hr
    exact ⟨rfl, rfl, [], by simp, rfl⟩
  | cons a acts ih =>
    obtain ⟨u, hs, hu⟩ := run_cons_some hr
    rcases act_shape (step_act hs) with ⟨k1, k2, E, k3, k4, _, k6, k7⟩ | ⟨c, m, ha, _, _⟩ |
      ⟨c, m, ha, _, _⟩
    · rw [quiet_cons k6 k7] at hq
      obtain ⟨j1, j2, E2, j3, j4⟩ := ih hu hq
      refine ⟨j1.trans k1, j2.trans k2, E ++ E2, ?_, ?_⟩
      · rw [j3, k3, List.append_assoc]
      · rw [broadcasts_append, k4, j4]
        rfl
    · subst ha
      simp [quiet] at hq
    · subst ha
      simp [quiet] at hq

/-- A serial stretch that starts with every inserted document broadcast ends so, and the
collection has grown by exactly the documents broadcast in it, in the order of the
broadcasts. -/
theorem serial_run : ∀ (n : Nat) (acts : List Action) (s t : State), acts.length ≤ n →
    run s acts = some t → serial acts = true → s.saved = [] →
    t.saved = [] ∧ ∃ E, t.emitted = s.emitted ++ E ∧ t.store = s.store ++ broadcasts E := by
  intro n
  induction n with
  | zero =>
    intro acts s t hlen hr _ h0
    have hnil : acts = [] := List.length_eq_zero.1 (Nat.le_zero.1 hlen)
    subst hnil
    simp only [run, Option.some.injEq] at hr
    subst hr
    exact ⟨h0, [], by simp, by simp [broadcasts, messagesOf]⟩
  | succ n ih =>
    intro acts s t hlen hr hser h0
    cases acts with
    | nil =>
      simp only [run, Option.some.injEq] at hr
      subst hr
      exact ⟨h0, [], by simp, by simp [broadcasts, messagesOf]⟩
    | cons a rest =>
      have hlen1 : rest.length ≤ n := by
        simp only [List.length_cons] at hlen
        omega
      obtain ⟨u, hs, hu⟩ := run_cons_some hr
      rcases act_shape (step_act hs) with ⟨k1, k2, E, k3, k4, _, k6, k7⟩ |
        ⟨c, m, ha, _, hu1⟩ | ⟨c, m, ha, _, _⟩
      · rw [serial_cons k6 k7] at hser
        obtain ⟨j1, E2, j3, j4⟩ := ih rest u t hlen1 hu hser (k1.trans h0)
        refine ⟨j1, E ++ E2, ?_, ?_⟩
        · rw [j3, k3, List.append_assoc]
        · rw [j4, k2, broadcasts_append, k4]
          rfl
      · subst ha
        cases rest with
        | nil => simp [serial] at hser
        | cons b rest2 =>
          have hlen2 : rest2.length ≤ n := by
            simp only [List.length_cons] at hlen1
            omega
          obtain ⟨w, hs2, hw⟩ := run_cons_some hu
          have hsaved : u.saved = [(c, m)] := by
            rw [hu1]
            simp [h0]
          cases b with
          | resume j =>
            simp only [serial, Bool.and_eq_true, beq_iff_eq] at hser
            obtain ⟨hij, hser2⟩ := hser
            subst hij
            rcases act_shape (step_act hs2) with ⟨_, _, _, _, _, _, _, k7⟩ |
              ⟨_, _, hb, _, _⟩ | ⟨c2, m2, hb, hl2, hw1⟩
            · exact absurd rfl (k7 m.id)
            · simp at hb
            · have hmem := (lookupDoc_some hl2).1
              rw [hsaved, List.mem_singleton] at hmem
              have hm2 : m2 = m := congrArg Prod.snd hmem
              subst hm2
              have hwsaved : w.saved = [] := by
                rw [hw1]
                simp [hsaved, dropDoc]
              obtain ⟨j1, E2, j3, j4⟩ := ih rest2 w t hlen2 hw hser2 hwsaved
              have e1 : w.emitted = s.emitted ++ [⟨s.openSockets, .message m2⟩] := by
                rw [hw1, hu1]
              have e2 : w.store = s.store ++ [m2] := by
                rw [hw1, hu1]
              have hb2 : broadcasts (⟨s.openSockets, .message m2⟩ :: E2)
                  = m2 :: broadcasts E2 := rfl
              refine ⟨j1, ⟨s.openSockets, .message m2⟩ :: E2, ?_, ?_⟩
              · rw [j3, e1]
                simp
              · rw [j4, e2, hb2]
                simp
          | tick => simp [serial] at hser
          | connect => simp [serial] at hser
          | findRead d h0 => simp [serial] at hser
          | findFail d => simp [serial] at hser
          | initEmit d => simp [serial] at hser
          | receive d msg oid => simp [serial] at hser
          | saveCommit j => simp [serial] at hser
          | saveFail j => simp [serial] at hser
          | disconnect d => simp [serial] at hser
      · subst ha
        simp [serial] at hser

/-- Once the history read of a socket has returned `h`, no other result is ever pending
for that socket. -/
theorem payload_act {s t : State} {a : Action} {c : SocketId} {h : List Message}
    (hq : c < s.nextConn ∧ c ∉ s.findIssued ∧ ∀ h2, (c, h2) ∈ s.findDone → h2 = h)
    (hs : act s a = some t) :
    c < t.nextConn ∧ c ∉ t.findIssued ∧ ∀ h2, (c, h2) ∈ t.findDone → h2 = h := by
  obtain ⟨h1, h2, h3⟩ := hq
  cases a with
  | tick =>
    simp only [act, Option.some.injEq] at hs
    subst hs
    exact ⟨h1, h2, h3⟩
  | connect =>
    simp only [act, Option.some.injEq] at hs
    subst hs
    refine ⟨Nat.lt_succ_of_lt h1, ?_, h3⟩
    intro hm
    rcases List.mem_append.1 hm with hm | hm
    · exact h2 hm
    · rw [List.mem_singleton] at hm
      exact Nat.lt_irrefl _ (hm ▸ h1)
  | findRead d h0 =>
    simp only [act] at hs
    split at hs
    · rename_i hg
      simp only [Option.some.injEq] at hs
      subst hs
      refine ⟨h1, fun hm => h2 (List.mem_filter.1 hm).1, ?_⟩
      intro h4 hm
      rcases List.mem_append.1 hm with hm | hm
      · exact h3 h4 hm
      · rw [List.mem_singleton] at hm
        have hcd : c = d := congrArg Prod.fst hm
        exact absurd (hcd ▸ hg.1) h2
    · simp at hs
  | findFail d =>
    simp only [act] at hs
    split at hs
    · rename_i hg
      simp only [Option.some.injEq] at hs
      subst hs
      exact ⟨h1, by simp [crash], fun h2 hm => by simp [crash] at hm⟩
    · simp at hs
  | initEmit d =>
    simp only [act] at hs
    split at hs
    · rename_i c2 h0 hl
      simp only [Option.some.injEq] at hs
      subst hs
      exact ⟨h1, h2, fun h4 hm => h3 h4 (List.mem_filter.1 hm).1⟩
    · simp at hs
  | receive d msg oid =>
    simp only [act] at hs
    split at hs
    · rename_i hg
      split at hs
      · rename_i m0 hm0
        simp only [Option.some.injEq] at hs
        subst hs
        exact ⟨h1, h2, h3⟩
      · simp only [Option.some.injEq] at hs
        subst hs
        exact ⟨h1, by simp [crash], fun h2 hm => by simp [crash] at hm⟩
    · simp at hs
  | saveCommit j =>
    simp only [act] at hs
    split at hs
    · rename_i c0 m0 hl
      simp only [Option.some.injEq] at hs
      subst hs
      exact ⟨h1, h2, h3⟩
    · simp at hs
  | saveFail j =>
    simp only [act] at hs
    split at hs
    · rename_i p0 hl
      simp only [Option.some.injEq] at hs
      subst hs
      exact ⟨h1, by simp [crash], fun h2 hm => by simp [crash] at hm⟩
    · simp at hs
  | resume j =>
    simp only [act] at hs
    split at hs
    · rename_i c0 m0 hl
      simp only [Option.some.injEq] at hs
      subst hs
      exact ⟨h1, h2, h3⟩
    · simp at hs
  | disconnect d =>
    simp only [act] at hs
    split at hs
    · rename_i hg
      simp only [Option.some.injEq] at hs
      subst hs
      exact ⟨h1, h2, h3⟩
    · simp at hs

theorem payload_run {s t : State} {acts : List Action} {c : SocketId} {h : List Message}
    (hq : c < s.nextConn ∧ c ∉ s.findIssued ∧ ∀ h2, (c, h2) ∈ s.findDone → h2 = h)
    (hr : run s acts = some t) :
    c < t.nextConn ∧ c ∉ t.findIssued ∧ ∀ h2, (c, h2) ∈ t.findDone → h2 = h := by
  induction acts generalizing s with
  | nil =>
    simp only [run, Option.some.injEq] at hr
    subst hr
    exact hq
  | cons a acts ih =>
    obtain ⟨u, hs, hu⟩ := run_cons_some hr
    exact ih (payload_act hq (step_act hs)) hu

/-- The `_id`s of the collection stay distinct when they are so at the start. -/
theorem storeNodup_run {s t : State} {acts : List Action} (hi : DocInv s)
    (hn : (s.store.map (fun m => m.id)).Nodup) (hr : run s acts = some t) :
    (t.store.map (fun m => m.id)).Nodup := by
  induction acts generalizing s with
  | nil =>
    simp only [run, Option.some.injEq] at hr
    subst hr
    exact hn
  | cons a acts ih =>
    obtain ⟨u, hs, hu⟩ := run_cons_some hr
    refine ih (docInv_step hi hs) ?_ hu
    rcases act_shape (step_act hs) with ⟨_, k2, _⟩ | ⟨c, m, _, hl, hu1⟩ | ⟨c, m, _, _, hu1⟩
    · rw [k2]
      exact hn
    · rw [hu1]
      simp only [List.map_append, List.map_cons, List.map_nil]
      rw [List.nodup_append]
      refine ⟨hn, List.nodup_singleton _, ?_⟩
      intro x hx hx2
      rw [List.mem_singleton] at hx2
      subst hx2
      exact hi.savingFresh _ (lookupDoc_some hl).1 hx
    · rw [hu1]
      exact hn

/-- C4, as stated, fails.  In `lateInitRun` socket 1 is connected, the stored message was
saved and broadcast before the `'init'` of socket 1 was emitted, and the `'init'` payload
is empty: the message is missing.  In `earlyReadRun` the stored message is in the `'init'`
payload of socket 1 and is sent to it again afterwards: the message is duplicated.  In
`shuffledRun` the history read, which asks for no order, returns the two stored messages
in the other order, and so does the `'init'`. -/
theorem history_completeness_counterexample :
    run (boot []) lateInitRun = some lateInitState ∧ 1 ∈ lateInitState.openSockets ∧
    lateInitState.store = [textDoc 0 0 "alice" "hi"] ∧
    outbox 1 lateInitState.emitted = [.message (textDoc 0 0 "alice" "hi"), .init []] ∧
    historyView (outbox 1 lateInitState.emitted) = some [] ∧
    run (boot []) earlyReadRun = some earlyReadState ∧ 1 ∈ earlyReadState.openSockets ∧
    earlyReadState.store = [textDoc 0 0 "alice" "hi"] ∧
    historyView (outbox 1 earlyReadState.emitted)
      = some [textDoc 0 0 "alice" "hi", textDoc 0 0 "alice" "hi"] ∧
    run (boot []) shuffledRun = some shuffledState ∧ 1 ∈ shuffledState.openSockets ∧
    shuffledState.store = [textDoc 0 0 "alice" "hi", textDoc 1 0 "alice" "yo"] ∧
    historyView (outbox 1 shuffledState.emitted)
      = some [textDoc 1 0 "alice" "yo", textDoc 0 0 "alice" "hi"] :=
  ⟨rfl, by decide, rfl, rfl, rfl, rfl, by decide, rfl, rfl, rfl, by decide, rfl, rfl⟩

/-- C4, amended.  Take a run, over whatever collection it starts, in which every insert is
followed at once by the broadcast of the inserted document, both before the history read
of socket `c` (`pre`) and after its `'init'` (`post`); in which no insert and no broadcast
falls between that read and that `'init'` (`mid`); and in which the read returns the
collection in its order.  If `c` is still connected at the end, then the `'init'` payload
followed by the documents of the `'message'` events `c` is sent after the `'init'` is the
store, in its order; and the `_id`s of the store are distinct when those of the starting
collection are. -/
theorem history_complete_when_serial (stored : List Message)
    (pre mid post : List Action) (c : SocketId) (s1 s : State)
    (hpre : run (boot stored) pre = some s1)
    (hrest : run s1 (.findRead c s1.store :: (mid ++ .initEmit c :: post)) = some s)
    (h1 : serial pre = true) (h2 : quiet mid = true) (h3 : serial post = true)
    (hc : c ∈ s.openSockets) :
    historyView (outbox c s.emitted) = some s.store ∧
    ((stored.map (fun m => m.id)).Nodup → (s.store.map (fun m => m.id)).Nodup) := by
  -- the state at the read
  obtain ⟨a1, E0, _, a3⟩ := serial_run pre.length pre (boot stored) s1 (Nat.le_refl _) hpre h1 rfl
  have hs1 := sockInv_reachable hpre
  -- the read
  obtain ⟨r, hread, hr1⟩ := run_cons_some hrest
  have hread2 := step_act hread
  simp only [act] at hread2
  split at hread2
  · rename_i hg
    simp only [Option.some.injEq] at hread2
    subst hread2
    have hQ : c < s1.nextConn ∧ c ∉ s1.findIssued.filter (fun d => d != c) ∧
        ∀ h4, (c, h4) ∈ s1.findDone ++ [(c, s1.store)] → h4 = s1.store := by
      refine ⟨hs1.issuedLt c hg.1, ?_, ?_⟩
      · intro hm
        have := (List.mem_filter.1 hm).2
        simp at this
      · intro h4 hm
        rcases List.mem_append.1 hm with hm | hm
        · exfalso
          exact (List.nodup_append.1 hs1.initOnce).2.2
            (List.mem_append_right _ (List.mem_map.2 ⟨(c, h4), hm, rfl⟩)) hg.1
        · rw [List.mem_singleton] at hm
          exact congrArg Prod.snd hm
    -- the stretch up to the `'init'`
    obtain ⟨s2, hmid, hr2⟩ := run_append_some hr1
    obtain ⟨b1, b2, Emid, b3, b4⟩ := quiet_run hmid h2
    have hQ2 := payload_run
      (s := { s1 with
        findIssued := s1.findIssued.filter (fun d => d != c)
        findDone := s1.findDone ++ [(c, s1.store)] }) hQ hmid
    -- the `'init'`
    obtain ⟨s3, hinit, hr3⟩ := run_cons_some hr2
    have hinit2 := step_act hinit
    simp only [act] at hinit2
    split at hinit2
    · rename_i c2 h4 hl
      simp only [Option.some.injEq] at hinit2
      obtain ⟨hmem, hc2⟩ := lookupFind_some hl
      simp only at hc2
      subst hc2
      have hpay : h4 = s1.store := hQ2.2.2 h4 hmem
      subst hpay
      have e1 : s3.saved = [] := by
        rw [← hinit2]
        exact b1.trans a1
      have e2 : s3.store = s1.store := by
        rw [← hinit2]
        exact b2
      have e3 : s3.emitted = s2.emitted ++ [⟨[c2], .init s1.store⟩] := by
        rw [← hinit2]
      -- the stretch after the `'init'`
      obtain ⟨_, Epost, d3, d4⟩ := serial_run post.length post s3 s (Nat.le_refl _) hr3 h3 e1
      have hfull : run (boot stored)
          (pre ++ .findRead c2 s1.store :: (mid ++ .initEmit c2 :: post)) = some s := by
        rw [run_append, hpre]
        exact hrest
      have hsplit : s.emitted = s2.emitted ++ ⟨[c2], .init s1.store⟩ :: Epost := by
        rw [d3, e3]
        simp
      have hview := view_of_split (sockInv_reachable hfull) hc hsplit
      refine ⟨?_, ?_⟩
      · rw [hview, d4, e2]
      · intro hn
        exact storeNodup_run (docInv_boot stored) hn hfull
    · simp at hinit2
  · simp at hread2

/-- The second socket of a run over a collection that already holds a message, for
`history_complete_when_serial`. -/
theorem history_complete_when_serial_witness :
    run (boot [oldDoc]) quietPre = some quietJoin ∧
    run quietJoin (.findRead 1 quietJoin.store :: ([] ++ .initEmit 1 :: quietPost))
      = some quietState ∧
    serial quietPre = true ∧ quiet [] = true ∧ serial quietPost = true ∧
    1 ∈ quietState.openSockets ∧
    historyView (outbox 1 quietState.emitted) = some quietState.store ∧
    (([oldDoc].map (fun m => m.id)).Nodup → (quietState.store.map (fun m => m.id)).Nodup) :=
  ⟨rfl, rfl, rfl, rfl, rfl, by decide,
    history_complete_when_serial [oldDoc] quietPre [] quietPost 1 quietJoin quietState rfl rfl
      rfl rfl rfl (by decide)⟩

/-! ### Identifiers and fields -/

/-- The fields of a document that could be built are the casts of the payload's
properties, its `_id` is the generated one and its `timestamp` the clock's value. -/
theorem newMessage_fields {oid now : Nat} {msg : Msg} {m : Message}
    (h : newMessage oid now msg = some m) :
    (msg.prop "user").bind castString = some m.user ∧
    (msg.prop "message").bind castString = some m.message ∧
    (msg.prop "file").bind castString = some m.file ∧
    (msg.prop "fileType").bind castString = some m.fileType ∧
    m.id = oid ∧ m.timestamp = now := by
  unfold newMessage at h
  cases hu : msg.prop "user" with
  | none => simp [hu] at h
  | some u =>
  cases hb : msg.prop "message" with
  | none => simp [hu, hb] at h
  | some b =>
  cases hf : msg.prop "file" with
  | none => simp [hu, hb, hf] at h
  | some f =>
  cases ht : msg.prop "fileType" with
  | none => simp [hu, hb, hf, ht] at h
  | some t =>
  simp only [hu, hb, hf, ht] at h
  cases hcu : castString u with
  | none => simp [hcu] at h
  | some u2 =>
  cases hcb : castString b with
  | none => simp [hcu, hcb] at h
  | some b2 =>
  cases hcf : castString f with
  | none => simp [hcu, hcb, hcf] at h
  | some f2 =>
  cases hct : castString t with
  | none => simp [hcu, hcb, hcf, hct] at h
  | some t2 =>
  simp only [hcu, hcb, hcf, hct, Option.some.injEq] at h
  subst h
  simp [hcu, hcb, hcf, hct]

theorem newMessage_of_fields {oid now : Nat} {msg : Msg} {u b f t : Value}
    (hu : (msg.prop "user").bind castString = some u)
    (hb : (msg.prop "message").bind castString = some b)
    (hf : (msg.prop "file").bind castString = some f)
    (ht : (msg.prop "fileType").bind castString = some t) :
    newMessage oid now msg = some { id := oid, user := u, message := b, file := f
                                    fileType := t, timestamp := now } := by
  unfold newMessage
  cases hpu : msg.prop "user" with
  | none => simp [hpu] at hu
  | some pu =>
  cases hpb : msg.prop "message" with
  | none => simp [hpb] at hb
  | some pb =>
  cases hpf : msg.prop "file" with
  | none => simp [hpf] at hf
  | some pf =>
  cases hpt : msg.prop "fileType" with
  | none => simp [hpt] at ht
  | some pt =>
  simp only [hpu, hpb, hpf, hpt, Option.some_bind] at hu hb hf ht
  simp [hu, hb, hf, ht]

/-- C9, as stated, fails.  A document has its `_id` and `timestamp` while its save is
still in flight and it is not in the store; two documents built in the order of their
`_id`s, 0 and then 1, and inserted in the opposite order are stored with decreasing
`_id`s; and a record's `user` and `message` differ from the event's when these are a
number and a boolean, which mongoose casts to strings. -/
theorem ids_counterexample :
    run (boot []) overtakeRun = some overtakeState ∧
    overtakeState.saving = [(0, textDoc 0 0 "alice" "hi")] ∧
    textDoc 0 0 "alice" "hi" ∉ overtakeState.store ∧
    (run (boot []) (overtakeRun ++ [.saveCommit 0])).map
      (fun s => s.store.map (fun m => m.id)) = some [1, 0] ∧
    scalarMsg.prop "user" = some (.num "5") ∧ scalarMsg.prop "message" = some (.bool true) ∧
    (newMessage 0 0 scalarMsg).map (fun m => (m.user, m.message))
      = some (.str "5", .str "true") :=
  ⟨rfl, rfl, by decide, rfl, rfl, rfl, rfl⟩

/-- C9, amended.  While the process runs, the document built from an inbound `'message'`
event takes `user`, `message`, `file` and `fileType` from the event, cast to strings by
mongoose, and nothing else; a string, `null` and an absent property are left as they are
by the cast.  Its `_id` is the one generated when the event arrives and its `timestamp`
the relay's clock at that moment, both set before the save; that document is what a
successful save stores and what is then broadcast.  Two events that agree on the four
properties yield documents that differ in nothing but `_id` and `timestamp`. -/
theorem record_built_on_arrival (stored : List Message) (acts : List Action) (s : State)
    (hr : run (boot stored) acts = some s) (hx : s.exited = false) (c : SocketId)
    (msg : Msg) (oid : Nat) (m : Message) (hc : c ∈ s.openSockets)
    (h1 : oid ∉ s.store.map (fun m => m.id)) (h2 : oid ∉ s.saving.map (fun p => p.2.id))
    (hm : newMessage oid s.now msg = some m) :
    (∃ t u v, step s (.receive c msg oid) = some t ∧ t.saving = s.saving ++ [(c, m)] ∧
      t.store = s.store ∧ step t (.saveCommit oid) = some u ∧ u.store = s.store ++ [m] ∧
      step u (.resume oid) = some v ∧
      v.emitted = s.emitted ++ [⟨s.openSockets, .message m⟩]) ∧
    m.id = oid ∧ m.timestamp = s.now ∧
    (msg.prop "user").bind castString = some m.user ∧
    (msg.prop "message").bind castString = some m.message ∧
    (msg.prop "file").bind castString = some m.file ∧
    (msg.prop "fileType").bind castString = some m.fileType ∧
    (∀ v, (v = .undefined ∨ v = .null ∨ ∃ x, v = .str x) → castString v = some v) ∧
    (∀ msg2 oid2 now2, msg2.prop "user" = msg.prop "user" →
      msg2.prop "message" = msg.prop "message" → msg2.prop "file" = msg.prop "file" →
      msg2.prop "fileType" = msg.prop "fileType" →
      newMessage oid2 now2 msg2 = some { m with id := oid2, timestamp := now2 }) := by
  obtain ⟨t, u, v, k1, _, k2, k3, _, k5, k6, _, k8, _, k10⟩ :=
    receive_chain (docInv_reachable hr) hx c msg oid m hc h1 h2 hm
  obtain ⟨f1, f2, f3, f4, f5, f6⟩ := newMessage_fields hm
  refine ⟨⟨t, u, v, k1, k2, k3, k5, k6, k8, k10⟩, f5, f6, f1, f2, f3, f4, ?_, ?_⟩
  · rintro v (rfl | rfl | ⟨x, rfl⟩) <;> rfl
  · intro msg2 oid2 now2 e1 e2 e3 e4
    exact newMessage_of_fields (e1 ▸ f1) (e2 ▸ f2) (e3 ▸ f3) (e4 ▸ f4)

/-- A third event arriving while one save is in flight, for `record_built_on_arrival`. -/
theorem record_built_on_arrival_witness :
    run (boot []) overtakeRun = some overtakeState ∧ overtakeState.exited = false ∧
    0 ∈ overtakeState.openSockets ∧ 2 ∉ overtakeState.store.map (fun m => m.id) ∧
    2 ∉ overtakeState.saving.map (fun p => p.2.id) ∧
    newMessage 2 overtakeState.now scalarMsg
      = some ⟨2, .str "5", .str "true", .undefined, .undefined, 0⟩ ∧
    (∃ t u v, step overtakeState (.receive 0 scalarMsg 2) = some t ∧
      t.saving = overtakeState.saving ++
        [(0, ⟨2, .str "5", .str "true", .undefined, .undefined, 0⟩)] ∧
      t.store = overtakeState.store ∧ step t (.saveCommit 2) = some u ∧
      u.store = overtakeState.store ++ [⟨2, .str "5", .str "true", .undefined, .undefined, 0⟩] ∧
      step u (.resume 2) = some v ∧
      v.emitted = overtakeState.emitted ++
        [⟨overtakeState.openSockets,
          .message ⟨2, .str "5", .str "true", .undefined, .undefined, 0⟩⟩]) ∧
    (scalarMsg.prop "user").bind castString = some (Value.str "5") :=
  have h := record_built_on_arrival [] overtakeRun overtakeState rfl rfl 0 scalarMsg 2
    ⟨2, .str "5", .str "true", .undefined, .undefined, 0⟩ (by decide) (by decide) (by decide) rfl
  ⟨rfl, rfl, by decide, by decide, by decide, rfl, h.1, h.2.2.2.1⟩

end VenkyChat
